import Mathlib

/-!
Verification development for the pure helper functions of the Certora
Scraper repository (`scripts/helpers.mjs`, mirrored here from the single
source file).  The JavaScript functions are shallowly embedded in Lean:
JavaScript runtime values are modelled by the inductive type `JVal`,
strings are processed as `List Char` under `String` wrappers, fallible
operations (the `URL` constructor, `JSON.parse`, property access on
`null`, calling `.toUpperCase()` on a non-string) are modelled with
`Option`/`Except`.  The runtime pieces the source leans on — the WHATWG
`URL` parser restricted to plain absolute `http(s)` URLs, the
`URLSearchParams` form serializer, `JSON.parse` (kept abstract as a
`String → Option JVal` parameter) — are modelled next to the functions
that use them.
-/

/-- Model of a JavaScript/JSON runtime value as passed between the helper
functions: the JSON primitives plus the distinguished `undefined`. -/
inductive JVal where
  | jnull
  | jundefVal
  | jbool (b : Bool)
  | jnum (n : Int)
  | jstr (s : String)
  | jarr (xs : List JVal)
  | jobj (fs : List (String × JVal))

/-- JavaScript truthiness of a value (the `Boolean(v)` / `if (v)` test). -/
def truthy : JVal → Bool
  | .jnull => false
  | .jundefVal => false
  | .jbool b => b
  | .jnum n => n != 0
  | .jstr s => s != ""
  | .jarr _ => true
  | .jobj _ => true

/-- Property read `v.k` on a value that is not `null`/`undefined`: objects
yield the stored value (JSON objects have unique keys, so the first match
is the only one), every other receiver yields `undefined`. -/
def getField : JVal → String → JVal
  | .jobj fs, k => ((fs.find? (fun p => p.1 == k)).map (fun p => p.2)).getD .jundefVal
  | _, _ => .jundefVal

/-- The JavaScript `k in v` test, used by the walker only on object nodes. -/
def hasField : JVal → String → Bool
  | .jobj fs, k => (fs.find? (fun p => p.1 == k)).isSome
  | _, _ => false

/-- Loose nullishness, the `v == null` / `v != null` comparison. -/
def nullish : JVal → Bool
  | .jnull => true
  | .jundefVal => true
  | _ => false

/-- The `Array.isArray(v)` test. -/
def isArr : JVal → Bool
  | .jarr _ => true
  | _ => false

/-- The idiom `Array.isArray(v) ? v : []` applied throughout the source. -/
def jArrayD : JVal → List JVal
  | .jarr xs => xs
  | _ => []

/-- Child list of a tree node: `Array.isArray(node.children) ? node.children : []`. -/
def jChildren (v : JVal) : List JVal :=
  jArrayD (getField v "children")

/-- The `Object.entries(v)` enumeration: own entries of an object, indexed
entries of an array, nothing for primitives. -/
def jEntries : JVal → List (String × JVal)
  | .jobj fs => fs
  | .jarr xs => xs.enum.map (fun p => (toString p.1, p.2))
  | _ => []

mutual
/-- Structural size of a value; serves as kernel-reducible fuel for the
tree walker. -/
def jsize : JVal → Nat
  | .jarr xs => 1 + jsizeL xs
  | .jobj fs => 1 + jsizeF fs
  | _ => 1
def jsizeL : List JVal → Nat
  | [] => 0
  | x :: xs => 1 + jsize x + jsizeL xs
def jsizeF : List (String × JVal) → Nat
  | [] => 0
  | p :: fs => 1 + jsize p.2 + jsizeF fs
end

mutual
/-- JavaScript `String(v)` coercion for the values the scraper meets
(ASCII data; objects print as `[object Object]`, arrays join with commas). -/
def jToStr : JVal → String
  | .jnull => "null"
  | .jundefVal => "undefined"
  | .jbool b => if b then "true" else "false"
  | .jnum n => toString n
  | .jstr s => s
  | .jobj _ => "[object Object]"
  | .jarr xs => jToStrL xs
/-- Comma join of `Array.prototype.toString`; `null` and `undefined`
elements render as the empty string. -/
def jToStrL : List JVal → String
  | [] => ""
  | x :: xs =>
    let hd :=
      match x with
      | .jnull => ""
      | .jundefVal => ""
      | v => jToStr v
    match xs with
    | [] => hd
    | _ :: _ => hd ++ "," ++ jToStrL xs
end

/- ## Character-list utilities shared by the string algorithms -/

/-- ASCII lowercasing of a character list (JavaScript `toLowerCase` on the
ASCII data the scraper handles). -/
def lowerL (l : List Char) : List Char := l.map Char.toLower

/-- ASCII uppercasing (JavaScript `toUpperCase`). -/
def upperL (l : List Char) : List Char := l.map Char.toUpper

/-- Decides whether `pat` occurs contiguously inside `l` (the JavaScript
`String.prototype.includes` / an unanchored regex literal test). -/
def containsSub (pat : List Char) : List Char → Bool
  | [] => pat.isEmpty
  | l@(_ :: rest) => pat.isPrefixOf l || containsSub pat rest

/-- Case-insensitive containment; `pat` is supplied already lowercased. -/
def containsSubCI (pat : List Char) (l : List Char) : Bool :=
  containsSub pat (lowerL l)

/-- Extends the first piece of a split with one more character. -/
def consHead (a : Char) : List (List Char) → List (List Char)
  | [] => [[a]]
  | p :: ps => (a :: p) :: ps

/-- Splits at every occurrence of `c`, keeping empty pieces (the
JavaScript `String.prototype.split` with a one-character separator). -/
def splitOnCharL (c : Char) : List Char → List (List Char)
  | [] => [[]]
  | a :: rest =>
    if a = c then [] :: splitOnCharL c rest
    else consHead a (splitOnCharL c rest)

/-- Joins pieces with the separator `c` (the JavaScript `Array.prototype.join`
with a one-character separator, specialised to ready-made strings). -/
def intercalateChar (c : Char) : List (List Char) → List Char
  | [] => []
  | [p] => p
  | p :: q :: ps => p ++ c :: intercalateChar c (q :: ps)

/-- Drops the longest suffix whose characters satisfy `p`. -/
def dropEndWhile (p : Char → Bool) (l : List Char) : List Char :=
  (l.reverse.dropWhile p).reverse

/-- Whitespace trim of both ends (JavaScript `String.prototype.trim` on
ASCII whitespace). -/
def trimL (l : List Char) : List Char :=
  dropEndWhile Char.isWhitespace (l.dropWhile Char.isWhitespace)

/-- Breaks a list at the first occurrence of `c`: the part before it and,
when `c` occurs, the part after it. -/
def breakAtChar (c : Char) : List Char → List Char × Option (List Char)
  | [] => ([], none)
  | a :: rest =>
    if a = c then ([], some rest)
    else
      match breakAtChar c rest with
      | (pre, post) => (a :: pre, post)

/-- Breaks a list at the first occurrence of any character from `seps`,
also reporting which separator was met. -/
def breakAtAny (seps : List Char) : List Char → List Char × Option (Char × List Char)
  | [] => ([], none)
  | a :: rest =>
    if a ∈ seps then ([], some (a, rest))
    else
      match breakAtAny seps rest with
      | (pre, post) => (a :: pre, post)

/-- Removal of every trailing `/` from a character list (the source regex
replacement `urlStr.replace(/\/+$/, '')`). -/
def stripTrailingSlashesL (l : List Char) : List Char :=
  dropEndWhile (fun c => c = '/') l

/-- String wrapper for `stripTrailingSlashesL`. -/
def stripTrailingSlashes (s : String) : String :=
  String.mk (stripTrailingSlashesL s.toList)

/- ## RunLocator: the URL model and `parseRunInfo` -/

/-- Components the source reads off a parsed WHATWG `URL` object. -/
structure ParsedUrl where
  protocol : String
  host : String
  pathname : String
  search : String
deriving Repr, DecidableEq

/-- Modelled from the runtime: the WHATWG `URL` constructor restricted to
the plain absolute URLs this repository handles — `scheme://host/path?query`
with an optional fragment; no userinfo, percent-normalisation or dot-segment
resolution (the theorems only instantiate it on inert characters).  `none`
models the constructor throwing. -/
def parseUrl (s : String) : Option ParsedUrl :=
  match breakAtChar ':' s.toList with
  | (scheme, some rest) =>
    if scheme.isEmpty then none
    else if rest.take 2 ≠ ['/', '/'] then none
    else
      match breakAtAny ['/', '?', '#'] (rest.drop 2) with
      | (host, more) =>
        if host.isEmpty then none
        else
          let protocol := String.mk (scheme ++ [':'])
          let hostS := String.mk host
          match more with
          | none => some ⟨protocol, hostS, "/", ""⟩
          | some ('/', tail) =>
            match breakAtAny ['?', '#'] tail with
            | (path, none) => some ⟨protocol, hostS, String.mk ('/' :: path), ""⟩
            | (path, some ('?', qtail)) =>
              some ⟨protocol, hostS, String.mk ('/' :: path),
                    String.mk (breakAtChar '#' qtail).1⟩
            | (path, some (_, _)) => some ⟨protocol, hostS, String.mk ('/' :: path), ""⟩
          | some ('?', tail) =>
            some ⟨protocol, hostS, "/", String.mk (breakAtChar '#' tail).1⟩
          | some (_, _) => some ⟨protocol, hostS, "/", ""⟩
  | (_, none) => none

/-- Modelled from the runtime: `searchParams.get(key)` over the serialized
query — first `&`-separated piece whose part before the first `=` equals
`key` (percent-decoding is not modelled; the theorems only instantiate
inert characters). -/
def searchParamGet (search : String) (key : String) : Option String :=
  let pieces := splitOnCharL '&' search.toList
  let hit := pieces.find? (fun piece => (breakAtChar '=' piece).1 = key.toList)
  hit.map (fun piece => String.mk ((breakAtChar '=' piece).2.getD []))

/-- Result shape of `parseRunInfo`; `runId`/`outputId` are `none` when the
path is too short, mirroring `undefined`. -/
structure RunInfo where
  origin : String
  runId : Option String
  outputId : Option String
  anonymousKey : String
deriving Repr, DecidableEq

/-- Template interpolation `${x}` of a possibly-`undefined` string. -/
def showOpt : Option String → String
  | some s => s
  | none => "undefined"

/-- The scan of `parseRunInfo`: walk the non-empty path segments keeping
the previous one; at the first segment equal to `"output"` whose
predecessor is not `"outputs"` take the following two segments. -/
def scanParts : List String → Option String → Option String × Option String
  | [], _ => (none, none)
  | p :: rest, prev =>
    if p = "output" ∧ prev ≠ some "outputs" then (rest.get? 0, rest.get? 1)
    else scanParts rest (some p)

/-- Translation of `parseRunInfo` (source lines 11–24).  `none` models the
`URL` constructor throwing on unparseable input — the `InvalidUrlError` of
the specification. -/
def parseRunInfo (urlStr : String) : Option RunInfo :=
  match parseUrl (stripTrailingSlashes urlStr) with
  | none => none
  | some u =>
    let parts := ((splitOnCharL '/' u.pathname.toList).map String.mk).filter
      (fun s => s ≠ "")
    let ids := scanParts parts none
    let anonymousKey :=
      match searchParamGet u.search "anonymousKey" with
      | some v => if v = "" then "" else v
      | none => ""
    some ⟨u.protocol ++ "//" ++ u.host, ids.1, ids.2, anonymousKey⟩

/-- Translation of `buildResultBaseUrl` (source lines 29–31). -/
def buildResultBaseUrl (runInfo : RunInfo) : String :=
  runInfo.origin ++ "/result/" ++ showOpt runInfo.runId ++ "/" ++ showOpt runInfo.outputId

/- ## ProgressTreeReader: `parseMaybeJson` and `getProgressRoots` -/

/-- Translation of `parseMaybeJson` (source lines 36–41), parameterised by
the runtime JSON parser (`none` models `JSON.parse` throwing, in which case
the original string is returned). -/
def parseMaybeJson (parseFn : String → Option JVal) : JVal → JVal
  | .jstr s => (parseFn s).getD (.jstr s)
  | v => v

/-- The `Array.isArray(x) ? x : [x]` wrapping used by `getProgressRoots`. -/
def wrapSeq : JVal → List JVal
  | .jarr xs => xs
  | v => [v]

/-- Inner resolution of `getProgressRoots` (source lines 50–57): the probes
applied to a present `verificationProgress` payload; `none` when none of
the three shapes match, in which case control falls through to the outer
probes. -/
def innerResolve (parseFn : String → Option JVal) (pj : JVal) : Option (List JVal) :=
  if truthy pj && !nullish (getField pj "verificationProgress") then
    let vp := parseMaybeJson parseFn (getField pj "verificationProgress")
    if truthy vp then
      if truthy (getField vp "rules") then some (wrapSeq (getField vp "rules"))
      else if isArr vp then some (jArrayD vp)
      else if truthy (getField vp "children") then some (wrapSeq (getField vp "children"))
      else none
    else none
  else none

/-- Outer resolution of `getProgressRoots` (source lines 58–61): the same
probes applied to the document itself once the `verificationProgress`
route yielded nothing. -/
def outerResolve (pj : JVal) : List JVal :=
  if truthy pj && truthy (getField pj "rules") then wrapSeq (getField pj "rules")
  else if isArr pj then jArrayD pj
  else if truthy pj && truthy (getField pj "children") then wrapSeq (getField pj "children")
  else []

/-- Translation of `getProgressRoots` (source lines 46–62). -/
def getProgressRoots (parseFn : String → Option JVal) (progressJson : JVal) : List JVal :=
  if !truthy progressJson then []
  else
    let pj := parseMaybeJson parseFn progressJson
    match innerResolve parseFn pj with
    | some r => r
    | none => outerResolve pj

/- ## RuleFilterWalker: `collectFailedRuleOutputs` -/

/-- Policy options of the walker (the `opts` argument). -/
structure Opts where
  includeSatisfied : Bool
  includeAll : Bool
  includeRuleMatch : Option String
deriving Repr, DecidableEq

/-- Models `(node.status || '').toUpperCase()`: reading a property off a
nullish receiver and calling `toUpperCase` on a truthy non-string both
throw `TypeError`, modelled by `Except.error`. -/
def statusOf : JVal → Except Unit String
  | .jnull => .error ()
  | .jundefVal => .error ()
  | v =>
    let f := getField v "status"
    if !truthy f then .ok ""
    else
      match f with
      | .jstr s => .ok (String.mk (upperL s.toList))
      | _ => .error ()

/-- Models `node.name || ''` followed by the string coercion that
`Array.prototype.join` applies to path entries. -/
def displayName (node : JVal) : String :=
  jToStr (if truthy (getField node "name") then getField node "name" else .jstr "")

/-- Normalisation of the `includeRuleMatch` option (source line 82):
a string whose trim is truthy is trimmed and lowercased, all else is `null`. -/
def normRuleMatch : Option String → Option String
  | some s =>
    let t := trimL s.toList
    if !t.isEmpty then some (String.mk (lowerL t)) else none
  | none => none

/-- UTF-8 bytes of a character, for the form serializer. -/
def utf8BytesOf (c : Char) : List Nat :=
  let n := c.toNat
  if n < 0x80 then [n]
  else if n < 0x800 then [0xC0 + n / 64, 0x80 + n % 64]
  else if n < 0x10000 then [0xE0 + n / 4096, 0x80 + (n / 64) % 64, 0x80 + n % 64]
  else [0xF0 + n / 262144, 0x80 + (n / 4096) % 64, 0x80 + (n / 64) % 64, 0x80 + n % 64]

/-- Uppercase hexadecimal digit. -/
def hexDigitU (n : Nat) : Char :=
  if n < 10 then Char.ofNat (48 + n) else Char.ofNat (55 + n)

/-- Modelled from the runtime: the `application/x-www-form-urlencoded`
serialization of one string as performed by `URLSearchParams.toString()`:
space becomes `+`, ASCII alphanumerics and `*-._` stay, every other
character is percent-encoded byte by byte. -/
def formEncodeChar (c : Char) : List Char :=
  if c = ' ' then ['+']
  else if c.isAlphanum || c = '*' || c = '-' || c = '.' || c = '_' then [c]
  else (utf8BytesOf c).foldr
    (fun b acc => '%' :: hexDigitU (b / 16) :: hexDigitU (b % 16) :: acc) []

/-- Form serialization of a whole string. -/
def formEncode (s : String) : String :=
  String.mk (s.toList.foldr (fun c acc => formEncodeChar c ++ acc) [])

/-- Ampersand join of serialized query pairs. -/
def joinAmp : List String → String
  | [] => ""
  | [x] => x
  | x :: y :: xs => x ++ "&" ++ joinAmp (y :: xs)

/-- Serialization of an appended `URLSearchParams` pair list. -/
def searchParamsToString (pairs : List (String × String)) : String :=
  joinAmp (pairs.map (fun p => formEncode p.1 ++ "=" ++ formEncode p.2))

/-- Result entry of the walker. -/
structure RuleHit where
  ruleName : String
  status : String
  outputFile : Option String
  url : Option String
  nodeSnapshot : Option (List (String × JVal))

/-- The case-insensitive `.json`-suffix test `/\.json$/i.test(outputFile)`. -/
def isJsonFileName (s : String) : Bool :=
  ".json".toList.isSuffixOf (lowerL s.toList)

/-- Construction of one primary hit (source lines 92–107): the full URL is
the base result URL plus the serialized parameters, `anonymousKey` appended
first and only when non-empty, `output` always appended. -/
def mkOutputHit (runInfo : RunInfo) (ruleName : String) (status : String)
    (outputFile : String) : RuleHit :=
  let baseUrl := runInfo.origin ++ "/result/" ++ showOpt runInfo.runId ++ "/" ++
    showOpt runInfo.outputId
  let pairs := (if runInfo.anonymousKey ≠ "" then [("anonymousKey", runInfo.anonymousKey)]
    else []) ++ [("output", outputFile)]
  let qs := searchParamsToString pairs
  let fullUrl := if qs ≠ "" then baseUrl ++ "?" ++ qs else baseUrl
  ⟨ruleName, status, some outputFile, some fullUrl, none⟩

/-- The fixed allow-list of evidentiary snapshot fields (source lines 111–113). -/
def snapshotFields : List String :=
  ["message", "counterExample", "counterexample", "trace", "callTrace",
   "output_type_information", "contract_call_summaries", "storage_initial_state",
   "assertions", "assertMessage", "treeViewPath", "variables", "callResolutionWarnings"]

/-- The synthesized snapshot of the secondary branch: `name`, `status`, and
exactly the allow-list fields present on the node. -/
def snapshotOf (node : JVal) (status : String) : List (String × JVal) :=
  ("name", getField node "name") :: ("status", .jstr status) ::
    snapshotFields.filterMap
      (fun f => if hasField node f then some (f, getField node f) else none)

/-- One primary-branch filtering pass over a node output list. -/
def outputHits (runInfo : RunInfo) (ruleName : String) (status : String)
    (output : List JVal) : List RuleHit :=
  output.filterMap (fun o =>
    match o with
    | .jstr f => if isJsonFileName f then some (mkOutputHit runInfo ruleName status f)
      else none
    | _ => none)

/-- Fuel-indexed translation of `collectFailedRuleOutputs` (source lines
71–132).  The recursion of the source is on the `children` arrays of an
untyped value, so the embedding recurses on an explicit fuel which the
wrapper below instantiates with the value size `jsize`, an upper bound on
the recursion depth; the zero-fuel branch is unreachable then (see
`collectF_congr`). -/
def collectF (runInfo : RunInfo) (opts : Opts) :
    Nat → JVal → List RuleHit → List String → Except Unit (List RuleHit)
  | 0, _, results, _ => .ok results
  | fuel + 1, node, results, curPath =>
    if !truthy node then .ok results
    else
      match statusOf node with
      | .error e => .error e
      | .ok status =>
        let output := jArrayD (getField node "output")
        let children := jChildren node
        let nextPath := curPath ++ [displayName node]
        let ruleLabel := String.intercalate " > " nextPath
        let matchesName :=
          match normRuleMatch opts.includeRuleMatch with
          | some m => containsSub m.toList (lowerL ruleLabel.toList)
          | none => false
        let own :=
          if status != "" && !output.isEmpty &&
              (matchesName || opts.includeAll ||
               (opts.includeSatisfied && status != "VERIFIED") ||
               (!opts.includeSatisfied && (status == "VIOLATED" || status == "SANITY_FAILED"))) then
            outputHits runInfo ruleLabel status output
          else if opts.includeSatisfied && status != "" && output.isEmpty &&
              status != "VERIFIED" then
            [⟨ruleLabel, status, none, none, some (snapshotOf node status)⟩]
          else []
        children.foldlM (fun acc c => collectF runInfo opts fuel c acc nextPath)
          (results ++ own)

/-- Translation of `collectFailedRuleOutputs`, fuel instantiated with the
size of the node. -/
def collectFailedRuleOutputs (node : JVal) (runInfo : RunInfo) (results : List RuleHit)
    (curPath : List String) (opts : Opts) : Except Unit (List RuleHit) :=
  collectF runInfo opts (jsize node) node results curPath

/-- The sibling-iteration pattern of the repository's callers: fold the
walker over a list of nodes, threading the shared accumulator. -/
def collectSubtrees (nodes : List JVal) (runInfo : RunInfo) (results : List RuleHit)
    (curPath : List String) (opts : Opts) : Except Unit (List RuleHit) :=
  nodes.foldlM (fun acc c => collectFailedRuleOutputs c runInfo acc curPath opts) results

/- ## MetadataSummarizer: `parseJobMetadata` -/

/-- The `typeof v === 'object'` test (`null` and arrays included). -/
def typeofIsObject : JVal → Bool
  | .jobj _ => true
  | .jarr _ => true
  | .jnull => true
  | _ => false

/-- Nullish coalescing `a ?? b`. -/
def nullCoalesce (a b : JVal) : JVal :=
  if nullish a then b else a

/-- The `Array.isArray(v) ? v.length : 0` outcome-sequence length. -/
def seqLen : JVal → Nat
  | .jarr xs => xs.length
  | _ => 0

/-- Sum of sequence-lengths over every entry whose key is not `"SUCCESS"`
(the `failCount` of the keyed rule-counting branch, source line 162). -/
def objFailCount (entries : List (String × JVal)) : Nat :=
  ((entries.filter (fun p => p.1 ≠ "SUCCESS")).map (fun p => seqLen p.2)).sum

/-- Classification of one keyed `rules` entry (source lines 158–164):
strings pass exactly when equal to `"SUCCESS"`; `typeof`-objects pass
exactly when their `failCount` is `0` (`null` values throw on the
`val.SUCCESS` access); other values are not counted at all. -/
def ruleEntryPassed : JVal → Except Unit (Option Bool)
  | .jstr s => .ok (some (s == "SUCCESS"))
  | .jnull => .error ()
  | .jobj fs => .ok (some (objFailCount (jEntries (.jobj fs)) == 0))
  | .jarr xs => .ok (some (objFailCount (jEntries (.jarr xs)) == 0))
  | _ => .ok none

/-- Pass/fail counts of the `rulesSummary`. -/
structure RulesSummary where
  passed : Nat
  failed : Nat
  total : Nat
deriving Repr, DecidableEq

/-- Projected job metadata; absent scalar inputs become `jnull`, exactly as
the `?? null` defaults of the source. -/
structure JobMeta where
  jobStatus : JVal
  proverTime : JVal
  contractName : JVal
  specFile : JVal
  solcVersion : JVal
  proverVersion : JVal
  ruleSanity : JVal
  rulesSummary : Option RulesSummary

/-- Translation of `parseJobMetadata` (source lines 138–175).  `Except.ok
none` models the early `return null`; `Except.error` models the
`TypeError`s the counting loops can hit. -/
def parseJobMetadata (data : JVal) : Except Unit (Option JobMeta) :=
  if !(truthy data && typeofIsObject data) then .ok none
  else do
    let conf := getField data "conf"
    let ruleSanity :=
      if truthy conf && typeofIsObject conf then
        nullCoalesce (getField conf "rule_sanity")
          (nullCoalesce (getField conf "ruleSanity") .jnull)
      else .jnull
    let rulesSummary ←
      if truthy (getField data "rules") then do
        let counts ←
          match getField data "rules" with
          | .jobj fs =>
            fs.foldlM
              (fun (pf : Nat × Nat) kv => do
                match ← ruleEntryPassed kv.2 with
                | some true => pure (pf.1 + 1, pf.2)
                | some false => pure (pf.1, pf.2 + 1)
                | none => pure pf)
              (0, 0)
          | .jarr xs =>
            xs.foldlM
              (fun (pf : Nat × Nat) r => do
                let s ← statusOf r
                if s == "VERIFIED" || s == "SUCCESS" then pure (pf.1 + 1, pf.2)
                else pure (pf.1, pf.2 + 1))
              (0, 0)
          | _ => pure ((0 : Nat), (0 : Nat))
        pure (some ⟨counts.1, counts.2, counts.1 + counts.2⟩)
      else pure (none : Option RulesSummary)
    pure (some
      { jobStatus := nullCoalesce (getField data "jobStatus") .jnull
        proverTime := nullCoalesce (getField data "proverTime") .jnull
        contractName := nullCoalesce (getField data "contractName") .jnull
        specFile := nullCoalesce (getField data "specFile") .jnull
        solcVersion := nullCoalesce (getField data "solcVersion") .jnull
        proverVersion := nullCoalesce (getField data "proverVersion") .jnull
        ruleSanity := ruleSanity
        rulesSummary := rulesSummary })

/- ## TranscriptAnswerExtractor: `extractCodexAnswer` -/

/-- Word character of the regex `\b` boundary. -/
def wordChar (c : Char) : Bool := c.isAlphanum || c = '_'

/-- Character class `[\d\-T:\.Z]` of the timestamp-prefix regex. -/
def tsChar (c : Char) : Bool :=
  c.isDigit || c = '-' || c = 'T' || c = ':' || c = '.' || c = 'Z'

/-- The line-anchored timestamp-prefix test `/^\[[\d\-T:\.Z]+\]/`. -/
def tsStart : List Char → Bool
  | '[' :: rest =>
    let body := rest.takeWhile tsChar
    !body.isEmpty && (rest.drop body.length).head? == some ']'
  | _ => false

/-- The case-insensitive `tokens used:` marker test. -/
def hasTokensUsed (l : List Char) : Bool :=
  containsSubCI "tokens used:".toList l

/-- Case-insensitive literal match at the head, returning the remainder. -/
def matchPreCI : List Char → List Char → Option (List Char)
  | [], rest => some rest
  | _ :: _, [] => none
  | p :: ps, c :: cs => if p.toLower = c.toLower then matchPreCI ps cs else none

/-- The `\b` boundary after a word character: end of line or a non-word
character. -/
def boundaryOk : List Char → Bool
  | [] => true
  | c :: _ => !wordChar c

/-- One-position test of the tool-invocation echo regex
`/\] (exec|bash -lc|codex|thinking)\b/i`. -/
def execEchoHere (l : List Char) : Bool :=
  ["] exec", "] bash -lc", "] codex", "] thinking"].any (fun pat =>
    match matchPreCI pat.toList l with
    | some rest => boundaryOk rest
    | none => false)

/-- Unanchored search for the tool-invocation echo. -/
def execEcho : List Char → Bool
  | [] => false
  | l@(_ :: rest) => execEchoHere l || execEcho rest

/-- The config-echo test `/workdir:|model:|provider:|approval:|sandbox:|reasoning/i`. -/
def configEcho (l : List Char) : Bool :=
  ["workdir:", "model:", "provider:", "approval:", "sandbox:", "reasoning"].any
    (fun pat => containsSubCI pat.toList l)

/-- The banner test `/OpenAI Codex/i`. -/
def bannerLine (l : List Char) : Bool :=
  containsSubCI "openai codex".toList l

/-- The meta-line predicate `isMetaLine` (source lines 185–190). -/
def isMetaLine (l : List Char) : Bool :=
  tsStart l || execEcho l || configEcho l || bannerLine l

/-- Indices of every line containing the `tokens used:` marker, in order. -/
def tokenIdxsOf (lines : List (List Char)) : List Nat :=
  (lines.enum.filter (fun p => hasTokensUsed p.2)).map (fun p => p.1)

/-- Index of the nearest timestamp-prefixed line strictly before `t`. -/
def lastTsBefore (lines : List (List Char)) (t : Nat) : Option Nat :=
  (((lines.take t).enum.filter (fun p => tsStart p.2)).map (fun p => p.1)).getLast?

/-- The filtered, joined and trimmed content of the line range strictly
between the nearest preceding timestamp line and the marker at `t`
(source lines 194–199). -/
def segmentFor (lines : List (List Char)) (t : Nat) : List Char :=
  let start := match lastTsBefore lines t with
    | some i => i + 1
    | none => 0
  let slice := (lines.take t).drop start
  trimL (intercalateChar '\n' (slice.filter (fun l => !isMetaLine l)))

/-- The marker loop (source lines 192–201): markers processed in the given
order (the caller passes them reversed, so last to first), first non-empty
filtered segment wins. -/
def markerLoop (lines : List (List Char)) : List Nat → Option (List Char)
  | [] => none
  | t :: rest =>
    let seg := segmentFor lines t
    if !seg.isEmpty then some seg else markerLoop lines rest

/-- The `Final answer:` line test `/^(Final answer|Final answer)\s*:/i`. -/
def finalAnswerLine (l : List Char) : Bool :=
  match matchPreCI "final answer".toList l with
  | some rest => (rest.dropWhile Char.isWhitespace).head? == some ':'
  | none => false

/-- Index of the last line containing the literal `User instructions:`. -/
def lastUserInstrIdx (lines : List (List Char)) : Option Nat :=
  ((lines.enum.filter (fun p => containsSub "User instructions:".toList p.2)).map
    (fun p => p.1)).getLast?

/-- Translation of `extractCodexAnswer` (source lines 178–216). -/
def extractCodexAnswer (fullOutput : String) : String :=
  let lines := splitOnCharL '\n' fullOutput.toList
  let tokenIdxs := tokenIdxsOf lines
  match markerLoop lines tokenIdxs.reverse with
  | some r => String.mk r
  | none =>
    match lines.findIdx? finalAnswerLine with
    | some i => String.mk (trimL (intercalateChar '\n' (lines.drop (i + 1))))
    | none =>
      let tailLines :=
        match lastUserInstrIdx lines with
        | some i => lines.drop (i + 1)
        | none => lines
      let candidate := trimL (intercalateChar '\n'
        (tailLines.filter (fun l => !isMetaLine l && !hasTokensUsed l)))
      if !candidate.isEmpty then String.mk candidate else fullOutput

/- ## Concrete values used by the theorems below -/

/-- JSON parser stub that always throws, for contexts where no parsing
should occur. -/
def noParse : String → Option JVal := fun _ => none

/-- Run address shared by the walker theorems. -/
def c1RunInfo : RunInfo := ⟨"https://prover.certora.com", some "111", some "aaa", "key1"⟩

/-- Status tree with one VIOLATED, one SANITY_FAILED and one VERIFIED node
with `.json` outputs, under a status-bearing root with empty output. -/
def c1Tree : JVal := .jobj [
  ("name", .jstr "root"), ("status", .jstr "RUNNING"), ("output", .jarr []),
  ("children", .jarr [
    .jobj [("name", .jstr "bad_rule"), ("status", .jstr "VIOLATED"),
      ("output", .jarr [.jstr "bad.json"]), ("children", .jarr [])],
    .jobj [("name", .jstr "sanity_check"), ("status", .jstr "SANITY_FAILED"),
      ("output", .jarr [.jstr "sanity.json"]), ("children", .jarr [])],
    .jobj [("name", .jstr "verified_rule"), ("status", .jstr "VERIFIED"),
      ("output", .jarr [.jstr "ok.json"]), ("children", .jarr [])]])]

/-- Expected hit of the VIOLATED node. -/
def c1HitViolated : RuleHit :=
  ⟨"root > bad_rule", "VIOLATED", some "bad.json",
   some "https://prover.certora.com/result/111/aaa?anonymousKey=key1&output=bad.json", none⟩

/-- Expected hit of the SANITY_FAILED node. -/
def c1HitSanity : RuleHit :=
  ⟨"root > sanity_check", "SANITY_FAILED", some "sanity.json",
   some "https://prover.certora.com/result/111/aaa?anonymousKey=key1&output=sanity.json", none⟩

/-- Expected hit of the VERIFIED node. -/
def c1HitVerified : RuleHit :=
  ⟨"root > verified_rule", "VERIFIED", some "ok.json",
   some "https://prover.certora.com/result/111/aaa?anonymousKey=key1&output=ok.json", none⟩

/-- Metadata document with the mixed `rules` mapping of the claim. -/
def c4Data : JVal := .jobj [
  ("jobStatus", .jstr "COMPLETED"),
  ("rules", .jobj [
    ("a", .jstr "SUCCESS"),
    ("b", .jobj [("SUCCESS", .jarr [.jnum 1]), ("VIOLATED", .jarr [.jnum 2, .jnum 3])]),
    ("c", .jstr "VIOLATED")])]

/-- Progress document whose JSON encoding round-trips through `toyParse`. -/
def c5Doc : JVal := .jobj [("rules", .jarr [.jobj [("name", .jstr "r1")]])]

/-- JSON parser stub recovering `c5Doc` from one fixed encoding. -/
def toyParse : String → Option JVal :=
  fun s => if s = "certora-progress" then some c5Doc else none

/-- Document whose `verificationProgress` payload matches no inner shape
while the document itself has a `rules` field. -/
def c10Doc : JVal := .jobj [
  ("verificationProgress", .jobj [("elapsed", .jnum 12)]),
  ("rules", .jarr [.jobj [("name", .jstr "r1")]])]

/-- Node with a non-VERIFIED status, no output and one evidentiary field. -/
def c8Node : JVal :=
  .jobj [("name", .jstr "r"), ("status", .jstr "TIMEOUT"), ("message", .jstr "m")]

/-- Shape of a non-null hit URL as the walker builds it: base result URL,
`?`, then the form-serialized parameters — `anonymousKey` first and only
when non-empty, `output` always, both values form-urlencoded. -/
def hitUrl (ri : RunInfo) (f : String) : String :=
  ri.origin ++ "/result/" ++ showOpt ri.runId ++ "/" ++ showOpt ri.outputId ++ "?" ++
    ((if ri.anonymousKey ≠ "" then "anonymousKey=" ++ formEncode ri.anonymousKey ++ "&" else "") ++
     ("output=" ++ formEncode f))

/-- Transcript whose final marker block contains an earlier marker line and
a whitespace-hidden timestamp line. -/
def c7Bad : String :=
  "[2025-01-01T00:00:00Z] start" ++ "\n" ++ "  [2025-01-01T00:00:01Z] a" ++ "\n" ++
  "1 tokens used: b" ++ "\n" ++ "2 tokens used: c"

/-- Transcript with two well-formed marker blocks. -/
def c7Good : String :=
  "[2025-01-01T00:00:00Z] exec codex" ++ "\n" ++ "first attempt answer" ++ "\n" ++
  "100 tokens used: x" ++ "\n" ++ "[2025-01-01T00:00:01Z] exec codex" ++ "\n" ++
  "second attempt: this is correct" ++ "\n" ++ "200 tokens used: y"

/-- Characters a WHATWG host keeps verbatim (already-lowercase letters,
digits, `-`, `.`): on such hosts the URL model agrees with the runtime. -/
def hostChar (c : Char) : Bool := c.isLower || c.isDigit || c = '-' || c = '.'

/-- Characters inert in a path segment or query value (no percent-escapes,
separators or case folding involved). -/
def segChar (c : Char) : Bool := c.isAlphanum || c = '-' || c = '_' || c = '.'

/-- Valid host of the claimed URL family. -/
def hostStr (h : String) : Prop := h ≠ "" ∧ ∀ c ∈ h.toList, hostChar c = true

/-- Valid run/output identifier: non-empty, inert, and not a dot segment
(which the runtime would normalise away). -/
def segStr (s : String) : Prop :=
  s ≠ "" ∧ s ≠ "." ∧ s ≠ ".." ∧ ∀ c ∈ s.toList, segChar c = true

/-- Valid anonymous key value: inert characters (possibly empty). -/
def keyStr (k : String) : Prop := ∀ c ∈ k.toList, segChar c = true

/- ## Theorems -/

theorem parseMaybeJson_not_str {parseFn : String → Option JVal} {v : JVal}
    (hv : ∀ t, v ≠ .jstr t) : parseMaybeJson parseFn v = v := by
  cases v <;> simp [parseMaybeJson]
  exact absurd rfl (hv _)

theorem isArr_eq_false_of_not_truthy {v : JVal} (h : truthy v = false) :
    isArr v = false := by
  cases v <;> simp_all [truthy, isArr]

theorem outerResolve_of_not_truthy {v : JVal} (h : truthy v = false) :
    outerResolve v = [] := by
  simp [outerResolve, h, isArr_eq_false_of_not_truthy h]

theorem innerResolve_of_not_truthy {parseFn : String → Option JVal} {v : JVal}
    (h : truthy v = false) : innerResolve parseFn v = none := by
  simp [innerResolve, h]

theorem getProgressRoots_of_truthy {parseFn : String → Option JVal} {d : JVal}
    (h : truthy d = true) :
    getProgressRoots parseFn d =
      match innerResolve parseFn (parseMaybeJson parseFn d) with
      | some r => r
      | none => outerResolve (parseMaybeJson parseFn d) := by
  rw [getProgressRoots, h]
  rfl

theorem getProgressRoots_of_not_truthy {parseFn : String → Option JVal} {d : JVal}
    (h : truthy d = false) : getProgressRoots parseFn d = [] := by
  rw [getProgressRoots, h]
  rfl

theorem snd_mem_of_mem_enum {α : Type} {l : List α} {p : Nat × α} (hp : p ∈ l.enum) :
    p.2 ∈ l := by
  have := List.mem_enum_iff_getElem?.mp hp
  exact List.getElem?_mem this

theorem splitOnCharL_ne_nil (c : Char) (l : List Char) : splitOnCharL c l ≠ [] := by
  cases l with
  | nil => simp [splitOnCharL]
  | cons a rest =>
    rw [splitOnCharL]
    by_cases hac : a = c
    · simp [hac]
    · rw [if_neg hac]
      cases h : splitOnCharL c rest <;> simp [consHead]

theorem intercalate_consHead (c a : Char) (ps : List (List Char)) (h : ps ≠ []) :
    intercalateChar c (consHead a ps) = a :: intercalateChar c ps := by
  cases ps with
  | nil => exact absurd rfl h
  | cons p ps2 =>
    cases ps2 with
    | nil => rfl
    | cons q ps3 => rfl

theorem intercalate_splitOnChar (c : Char) (l : List Char) :
    intercalateChar c (splitOnCharL c l) = l := by
  induction l with
  | nil => rfl
  | cons a rest ih =>
    rw [splitOnCharL]
    by_cases hac : a = c
    · rw [if_pos hac]
      cases h : splitOnCharL c rest with
      | nil => exact absurd h (splitOnCharL_ne_nil c rest)
      | cons p ps =>
        rw [h] at ih
        rw [intercalateChar, ih, hac]
        rfl
    · rw [if_neg hac, intercalate_consHead c a _ (splitOnCharL_ne_nil c rest), ih]

-- walker machinery: size bounds and fuel congruence

theorem except_ok_bind {α β γ : Type} (a : β) (k : β → Except α γ) :
    (Except.ok a >>= k : Except α γ) = k a := rfl

theorem except_error_bind {α β γ : Type} (e : α) (k : β → Except α γ) :
    (Except.error e >>= k : Except α γ) = Except.error e := rfl

theorem jsize_pos (v : JVal) : 1 ≤ jsize v := by
  cases v <;> simp [jsize]

theorem jsize_le_of_mem {x : JVal} {xs : List JVal} (h : x ∈ xs) :
    jsize x ≤ jsizeL xs := by
  induction xs with
  | nil => cases h
  | cons y ys ih =>
    rw [jsizeL]
    rcases List.mem_cons.mp h with rfl | hmem
    · omega
    · have := ih hmem
      omega

theorem jsizeF_le_of_mem {p : String × JVal} {fs : List (String × JVal)} (h : p ∈ fs) :
    jsize p.2 ≤ jsizeF fs := by
  induction fs with
  | nil => cases h
  | cons q qs ih =>
    rw [jsizeF]
    rcases List.mem_cons.mp h with rfl | hmem
    · omega
    · have := ih hmem
      omega

theorem jsize_children_lt {node c : JVal} (h : c ∈ jChildren node) :
    jsize c < jsize node := by
  unfold jChildren at h
  cases node
  case jobj fs =>
    rw [getField] at h
    cases hf : fs.find? (fun p => p.1 == "children") with
    | none => rw [hf] at h; simp [jArrayD] at h
    | some p =>
      rw [hf] at h
      change c ∈ jArrayD p.2 at h
      have hple : jsize p.2 ≤ jsizeF fs := jsizeF_le_of_mem (List.mem_of_find?_eq_some hf)
      cases hp2 : p.2
      case jarr xs =>
        rw [hp2] at h hple
        have h1 : jsize c ≤ jsizeL xs := jsize_le_of_mem (by simpa [jArrayD] using h)
        rw [jsize] at hple
        rw [jsize]
        omega
      all_goals (rw [hp2] at h; simp [jArrayD] at h)
  all_goals simp [getField, jArrayD] at h

theorem collectF_congr (ri : RunInfo) (opts : Opts) :
    ∀ (f1 f2 : Nat) (node : JVal) (results : List RuleHit) (curPath : List String),
      jsize node ≤ f1 → jsize node ≤ f2 →
      collectF ri opts f1 node results curPath = collectF ri opts f2 node results curPath := by
  intro f1
  induction f1 with
  | zero =>
    intro f2 node results curPath h1 h2
    have := jsize_pos node
    omega
  | succ a ih =>
    intro f2 node results curPath h1 h2
    cases f2 with
    | zero =>
      have := jsize_pos node
      omega
    | succ b =>
      have hch : ∀ c ∈ jChildren node, jsize c ≤ a ∧ jsize c ≤ b := by
        intro c hc
        have h3 := jsize_children_lt hc
        omega
      have key : ∀ (cs : List JVal), (∀ c ∈ cs, jsize c ≤ a ∧ jsize c ≤ b) →
          ∀ (acc : List RuleHit) (nextPath : List String),
          cs.foldlM (fun acc c => collectF ri opts a c acc nextPath) acc =
          cs.foldlM (fun acc c => collectF ri opts b c acc nextPath) acc := by
        intro cs hcs
        induction cs with
        | nil => intro acc nextPath; rfl
        | cons c cs2 ihc =>
          intro acc nextPath
          rw [List.foldlM_cons, List.foldlM_cons]
          rw [ih b c acc nextPath (hcs c (List.mem_cons_self c cs2)).1
            (hcs c (List.mem_cons_self c cs2)).2]
          cases hx : collectF ri opts b c acc nextPath with
          | error e => rfl
          | ok acc2 =>
            rw [except_ok_bind, except_ok_bind]
            exact ihc (fun c2 hc2 => hcs c2 (List.mem_cons_of_mem c hc2)) acc2 nextPath
      rw [collectF, collectF]
      by_cases htr : truthy node
      · simp only [htr, Bool.not_true, Bool.false_eq_true, if_false]
        cases hst : statusOf node with
        | error e => rfl
        | ok st => exact key (jChildren node) hch _ _
      · have htr2 : truthy node = false := by simpa using htr
        rw [htr2]
        rfl

theorem collectF_children_eq (ri : RunInfo) (opts : Opts) (path : List String) :
    ∀ (cs : List JVal) (f : Nat), (∀ c ∈ cs, jsize c ≤ f) → ∀ (acc : List RuleHit),
      cs.foldlM (fun acc c => collectF ri opts f c acc path) acc =
      collectSubtrees cs ri acc path opts := by
  intro cs
  induction cs with
  | nil => intro f h acc; rfl
  | cons c cs2 ihc =>
    intro f h acc
    unfold collectSubtrees
    rw [List.foldlM_cons, List.foldlM_cons]
    have hc : collectF ri opts f c acc path = collectFailedRuleOutputs c ri acc path opts := by
      rw [collectFailedRuleOutputs]
      exact collectF_congr ri opts f (jsize c) c acc path (h c (List.mem_cons_self c cs2)) le_rfl
    rw [hc]
    cases hx : collectFailedRuleOutputs c ri acc path opts with
    | error e => rfl
    | ok acc2 =>
      rw [except_ok_bind, except_ok_bind]
      have := ihc f (fun c2 hc2 => h c2 (List.mem_cons_of_mem c hc2)) acc2
      rw [this]
      rfl


theorem claim8_core (node : JVal) (ri : RunInfo) (results : List RuleHit) (curPath : List String)
    (opts : Opts) (st : String)
    (hstatus : statusOf node = .ok st) (hne : st ≠ "") (hnv : st ≠ "VERIFIED")
    (hout : jArrayD (getField node "output") = []) (hsat : opts.includeSatisfied = true) :
    collectFailedRuleOutputs node ri results curPath opts =
      collectSubtrees (jChildren node) ri
        (results ++ [⟨String.intercalate " > " (curPath ++ [displayName node]), st, none, none,
          some (snapshotOf node st)⟩])
        (curPath ++ [displayName node]) opts := by
  have htr : truthy node = true := by
    cases node with
    | jobj fs => rfl
    | jarr xs => rfl
    | jnull => simp [statusOf] at hstatus
    | jundefVal => simp [statusOf] at hstatus
    | jbool b =>
      simp [statusOf, getField, truthy] at hstatus
      exact absurd hstatus.symm hne
    | jnum n =>
      simp [statusOf, getField, truthy] at hstatus
      exact absurd hstatus.symm hne
    | jstr s =>
      simp [statusOf, getField, truthy] at hstatus
      exact absurd hstatus.symm hne
  obtain ⟨k, hk⟩ : ∃ k, jsize node = k + 1 :=
    ⟨jsize node - 1, by have := jsize_pos node; omega⟩
  have hne2 : (st != "") = true := by simp [hne]
  have hnv2 : (st != "VERIFIED") = true := by simp [hnv]
  rw [collectFailedRuleOutputs, hk, collectF, htr]
  simp only [hstatus, hout, hsat, hne2, hnv2, Bool.not_true, Bool.false_eq_true, if_false,
    List.isEmpty_nil, Bool.and_true, Bool.true_and, Bool.and_false, Bool.false_and,
    Bool.or_false, Bool.false_or, Bool.not_false, if_true]
  exact collectF_children_eq ri opts _ (jChildren node) k
    (fun c hc => by have := jsize_children_lt hc; omega) _

/-- Claim C1: on a tree with exactly one VIOLATED, one SANITY_FAILED and
one VERIFIED node carrying `.json` outputs plus a status-bearing node with
empty output, the default policy collects exactly the VIOLATED and
SANITY_FAILED hits, `includeAll` collects all three nodes with output, and
`includeRuleMatch` matching only the VERIFIED path yields the two default
hits plus the matched one, without duplicates. -/
theorem claim1_collect_policy_counts :
    collectFailedRuleOutputs c1Tree c1RunInfo [] [] ⟨false, false, none⟩ =
      .ok [c1HitViolated, c1HitSanity] ∧
    collectFailedRuleOutputs c1Tree c1RunInfo [] [] ⟨false, true, none⟩ =
      .ok [c1HitViolated, c1HitSanity, c1HitVerified] ∧
    collectFailedRuleOutputs c1Tree c1RunInfo [] [] ⟨false, false, some "verified_rule"⟩ =
      .ok [c1HitViolated, c1HitSanity, c1HitVerified] ∧
    ([c1HitViolated, c1HitSanity, c1HitVerified].map RuleHit.ruleName).Nodup :=
  ⟨by rfl, by rfl, by rfl, by decide⟩

/-- Claim C4: a string-valued keyed rule entry passes exactly when it is
`"SUCCESS"`; an object-valued entry passes exactly when the sum of
sequence-lengths over its non-`SUCCESS` keys is zero, so an entry with no
outcome arrays at all passes (fail open); the mixed sample yields
`passed 1, failed 2, total 3`. -/
theorem claim4_rules_summary :
    (∀ s : String, ruleEntryPassed (.jstr s) = .ok (some (s == "SUCCESS"))) ∧
    (∀ fs : List (String × JVal), ruleEntryPassed (.jobj fs) = .ok (some (objFailCount fs == 0))) ∧
    (∀ fs : List (String × JVal), (∀ p ∈ fs, isArr p.2 = false) →
      ruleEntryPassed (.jobj fs) = .ok (some true)) ∧
    (parseJobMetadata c4Data).map (fun m => m.map (fun j => j.rulesSummary)) =
      .ok (some (some ⟨1, 2, 3⟩)) := by
  refine ⟨fun s => rfl, fun fs => rfl, fun fs h => ?_, by rfl⟩
  have hz : objFailCount fs = 0 := by
    unfold objFailCount
    apply List.sum_eq_zero
    intro x hx
    simp only [List.mem_map, List.mem_filter] at hx
    obtain ⟨p, ⟨hp, _⟩, rfl⟩ := hx
    have := h p hp
    cases hv : p.2 <;> simp_all [seqLen, isArr]
  simp [ruleEntryPassed, jEntries, hz]

/-- Witness for C4 at a rule entry with no outcome arrays. -/
theorem claim4_rules_summary_witness :
    ruleEntryPassed (.jobj [("note", .jstr "pending")]) = .ok (some true) :=
  claim4_rules_summary.2.2.1 [("note", .jstr "pending")]
    (fun p hp => by cases hp with
      | head => rfl
      | tail _ h => cases h)

/-- Claim C5: `getProgressRoots` is `[]` on `null` and `undefined`, and
yields the same roots on a parsed document and on its JSON string encoding
whenever the runtime parser recovers the document from that string. -/
theorem claim5_getRoots_encoding_invariance (parseFn : String → Option JVal)
    (s : String) (v : JVal) (hs : s ≠ "") (hv : ∀ t, v ≠ .jstr t)
    (hp : parseFn s = some v) :
    getProgressRoots parseFn .jnull = [] ∧
    getProgressRoots parseFn .jundefVal = [] ∧
    getProgressRoots parseFn (.jstr s) = getProgressRoots parseFn v := by
  refine ⟨rfl, rfl, ?_⟩
  have hts : truthy (.jstr s) = true := by simp [truthy, hs]
  have hpm : parseMaybeJson parseFn (JVal.jstr s) = v := by
    simp [parseMaybeJson, hp]
  by_cases ht : truthy v = true
  · rw [getProgressRoots_of_truthy hts, getProgressRoots_of_truthy ht, hpm,
      parseMaybeJson_not_str hv]
  · have ht : truthy v = false := by simpa using ht
    rw [getProgressRoots_of_truthy hts, getProgressRoots_of_not_truthy ht, hpm,
      innerResolve_of_not_truthy ht, outerResolve_of_not_truthy ht]

/-- Witness for C5 on a concrete codec and document. -/
theorem claim5_getRoots_encoding_invariance_witness :
    getProgressRoots toyParse (.jstr "certora-progress") = getProgressRoots toyParse c5Doc ∧
    getProgressRoots toyParse c5Doc = [.jobj [("name", .jstr "r1")]] :=
  ⟨(claim5_getRoots_encoding_invariance toyParse "certora-progress" c5Doc (by decide)
      (fun t => by simp [c5Doc]) (by rfl)).2.2, by rfl⟩

/-- Claim C10: when a present `verificationProgress` payload matches none
of the inner shapes, `getProgressRoots` does not stop with `[]` but falls
through to probing the outer document, in particular returning the outer
`rules` field when that is present. -/
theorem claim10_inner_fallthrough (parseFn : String → Option JVal) (doc : JVal)
    (hdoc : truthy doc = true)
    (hpj : truthy (parseMaybeJson parseFn doc) = true)
    (hvpn : nullish (getField (parseMaybeJson parseFn doc) "verificationProgress") = false)
    (hvp : truthy (parseMaybeJson parseFn
      (getField (parseMaybeJson parseFn doc) "verificationProgress")) = true)
    (hrules : truthy (getField (parseMaybeJson parseFn
      (getField (parseMaybeJson parseFn doc) "verificationProgress")) "rules") = false)
    (harr : isArr (parseMaybeJson parseFn
      (getField (parseMaybeJson parseFn doc) "verificationProgress")) = false)
    (hchildren : truthy (getField (parseMaybeJson parseFn
      (getField (parseMaybeJson parseFn doc) "verificationProgress")) "children") = false) :
    getProgressRoots parseFn doc = outerResolve (parseMaybeJson parseFn doc) ∧
    (truthy (getField (parseMaybeJson parseFn doc) "rules") = true →
      getProgressRoots parseFn doc = wrapSeq (getField (parseMaybeJson parseFn doc) "rules")) := by
  have hinner : innerResolve parseFn (parseMaybeJson parseFn doc) = none := by
    simp [innerResolve, hpj, hvpn, hvp, hrules, harr, hchildren]
  have hmain : getProgressRoots parseFn doc = outerResolve (parseMaybeJson parseFn doc) := by
    rw [getProgressRoots_of_truthy hdoc, hinner]
  refine ⟨hmain, fun hr => ?_⟩
  rw [hmain, outerResolve, hpj, hr]
  rfl

/-- Witness for C10 at a concrete document. -/
theorem claim10_inner_fallthrough_witness :
    getProgressRoots noParse c10Doc = [.jobj [("name", .jstr "r1")]] := by
  have h := (claim10_inner_fallthrough noParse c10Doc (by rfl) (by rfl) (by rfl) (by rfl)
    (by rfl) (by rfl) (by rfl)).2 (by rfl)
  rw [h]
  rfl

/-- Counterexample for C6: on marker-free input with surrounding
whitespace, `extractCodexAnswer` returns the trimmed text, not the input
unchanged. -/
theorem claim6_extract_unchanged_counterexample :
    ((splitOnCharL '\n' "  hello  ".toList).all (fun l =>
      !hasTokensUsed l && !isMetaLine l && !finalAnswerLine l &&
      !containsSub "User instructions:".toList l)) = true ∧
    extractCodexAnswer "  hello  " = "hello" ∧
    ("hello" : String) ≠ "  hello  " := ⟨by decide, by rfl, by decide⟩

/-- Claim C6 as amended: `extractCodexAnswer` is total, and on input with
no recognizable markers (no tokens-used line, no final-answer line, no
user-instructions line, no meta lines) it returns the input trimmed of
leading and trailing whitespace — hence the input itself exactly when the
trim is trivial, and also when the whole input is whitespace. -/
theorem claim6_extract_marker_free_trim (t : String)
    (h : ∀ l ∈ splitOnCharL '\n' t.toList,
      hasTokensUsed l = false ∧ isMetaLine l = false ∧ finalAnswerLine l = false ∧
      containsSub "User instructions:".toList l = false) :
    extractCodexAnswer t =
      if trimL t.toList = [] then t else String.mk (trimL t.toList) := by
  have htok : tokenIdxsOf (splitOnCharL '\n' t.toList) = [] := by
    unfold tokenIdxsOf
    have hf : (splitOnCharL '\n' t.toList).enum.filter (fun p => hasTokensUsed p.2) = [] := by
      rw [List.filter_eq_nil_iff]
      intro p hp
      simp [(h p.2 (snd_mem_of_mem_enum hp)).1]
    rw [hf]
    rfl
  have hfind : (splitOnCharL '\n' t.toList).findIdx? finalAnswerLine = none := by
    rw [List.findIdx?_eq_none_iff]
    intro l hl
    simp [(h l hl).2.2.1]
  have huser : lastUserInstrIdx (splitOnCharL '\n' t.toList) = none := by
    unfold lastUserInstrIdx
    have hf : (splitOnCharL '\n' t.toList).enum.filter
        (fun p => containsSub "User instructions:".toList p.2) = [] := by
      rw [List.filter_eq_nil_iff]
      intro p hp
      have hc := (h p.2 (snd_mem_of_mem_enum hp)).2.2.2
      simp only [Bool.not_eq_true]
      exact hc
    rw [hf]
    rfl
  have hfilter : (splitOnCharL '\n' t.toList).filter
      (fun l => !isMetaLine l && !hasTokensUsed l) = splitOnCharL '\n' t.toList := by
    rw [List.filter_eq_self]
    intro l hl
    simp [(h l hl).1, (h l hl).2.1]
  simp only [extractCodexAnswer, htok, List.reverse_nil, markerLoop, hfind, huser,
    hfilter, intercalate_splitOnChar]
  by_cases hz : trimL t.toList = []
  · simp [hz]
  · simp [hz]

/-- Witness for C6 on marker-free text with no surrounding whitespace. -/
theorem claim6_extract_marker_free_trim_witness :
    extractCodexAnswer "plain text, no markers." = "plain text, no markers." := by
  have h := claim6_extract_marker_free_trim "plain text, no markers." (by decide)
  rw [h]
  rfl

/-- Counterexample for C9: a truthy non-string `status` field makes the
walker and the metadata summarizer throw a `TypeError` instead of
returning a typed default. -/
theorem claim9_only_parse_raises_counterexample :
    collectFailedRuleOutputs (.jobj [("status", .jnum 1), ("output", .jarr [.jstr "a.json"])])
        ⟨"https://prover.certora.com", some "111", some "aaa", ""⟩ [] []
        ⟨false, false, none⟩ = .error () ∧
    parseJobMetadata (.jobj [("rules", .jobj [("r", .jnull)])]) = .error () := ⟨by rfl, by rfl⟩

/-- Claim C9 as amended: `parseRunInfo` raises `InvalidUrlError` exactly
when its input is not parseable as a URL; malformed JSON, nullish
documents, non-object documents and empty transcripts yield typed default
values without raising; however a truthy non-string `status` (a wrong
shape) does make the walker and summarizer raise. -/
theorem claim9_error_taxonomy :
    (∀ s : String, (parseRunInfo s = none ↔ parseUrl (stripTrailingSlashes s) = none)) ∧
    (∀ (parseFn : String → Option JVal) (s : String), parseFn s = none →
      parseMaybeJson parseFn (.jstr s) = .jstr s) ∧
    (∀ parseFn : String → Option JVal,
      getProgressRoots parseFn .jnull = [] ∧ getProgressRoots parseFn .jundefVal = []) ∧
    parseJobMetadata .jnull = .ok none ∧
    parseJobMetadata .jundefVal = .ok none ∧
    (∀ s : String, parseJobMetadata (.jstr s) = .ok none) ∧
    (∀ n : Int, parseJobMetadata (.jnum n) = .ok none) ∧
    extractCodexAnswer "" = "" := by
  refine ⟨fun s => ?_, fun pf s h => ?_, fun pf => ⟨rfl, rfl⟩, rfl, rfl,
    fun s => ?_, fun n => ?_, by rfl⟩
  · unfold parseRunInfo
    cases parseUrl (stripTrailingSlashes s) <;> simp
  · simp [parseMaybeJson, h]
  · simp [parseJobMetadata, typeofIsObject]
  · simp [parseJobMetadata, typeofIsObject]

/-- Witness for C9 on concrete bad inputs. -/
theorem claim9_error_taxonomy_witness :
    parseRunInfo "not a url" = none ∧
    parseMaybeJson noParse (.jstr "oops") = .jstr "oops" :=
  ⟨(claim9_error_taxonomy.1 "not a url").mpr (by rfl),
   claim9_error_taxonomy.2.1 noParse "oops" rfl⟩

/-- Claim C8: on a node where the primary predicate is false while
`includeSatisfied` is set, the status is non-empty and not VERIFIED and
the output is empty, the walker emits exactly one synthesized hit with
null `outputFile` and `url` and a snapshot of `name`, `status` and the
allow-list fields present on the node, then continues into the children. -/
theorem claim8_snapshot_branch (node : JVal) (ri : RunInfo) (results : List RuleHit)
    (curPath : List String) (opts : Opts) (st : String)
    (hstatus : statusOf node = .ok st) (hne : st ≠ "") (hnv : st ≠ "VERIFIED")
    (hout : jArrayD (getField node "output") = []) (hsat : opts.includeSatisfied = true) :
    collectFailedRuleOutputs node ri results curPath opts =
      collectSubtrees (jChildren node) ri
        (results ++ [⟨String.intercalate " > " (curPath ++ [displayName node]), st, none, none,
          some (snapshotOf node st)⟩])
        (curPath ++ [displayName node]) opts :=
  claim8_core node ri results curPath opts st hstatus hne hnv hout hsat

/-- Witness for C8 at a concrete node with one evidentiary field. -/
theorem claim8_snapshot_branch_witness :
    collectFailedRuleOutputs c8Node c1RunInfo [] [] ⟨true, false, none⟩ =
      .ok [⟨"r", "TIMEOUT", none, none,
        some [("name", .jstr "r"), ("status", .jstr "TIMEOUT"), ("message", .jstr "m")]⟩] := by
  have h := claim8_snapshot_branch c8Node c1RunInfo [] [] ⟨true, false, none⟩ "TIMEOUT"
    (by rfl) (by decide) (by decide) (by rfl) (by rfl)
  rw [h]
  rfl

theorem append_ne_empty_left {a b : String} (h : a ≠ "") : a ++ b ≠ "" := by
  intro hc
  apply h
  apply String.ext
  have hd := congrArg String.data hc
  rw [String.data_append] at hd
  exact (List.append_eq_nil.mp hd).1

theorem mkOutputHit_url (ri : RunInfo) (rn st f : String) :
    (mkOutputHit ri rn st f).url = some (hitUrl ri f) := by
  unfold mkOutputHit hitUrl searchParamsToString
  by_cases hk : ri.anonymousKey = ""
  · rw [if_neg (not_not_intro hk), if_neg (not_not_intro hk)]
    simp only [List.nil_append, List.map_cons, List.map_nil, joinAmp]
    rw [show (formEncode "output" ++ "=" : String) = "output=" from rfl]
    have hne : ("output=" ++ formEncode f : String) ≠ "" :=
      append_ne_empty_left (by decide)
    rw [if_pos hne]
    rfl
  · rw [if_pos hk, if_pos hk]
    simp only [List.cons_append, List.nil_append, List.map_cons, List.map_nil, joinAmp]
    rw [show (formEncode "anonymousKey" ++ "=" : String) = "anonymousKey=" from rfl,
      show (formEncode "output" ++ "=" : String) = "output=" from rfl]
    have hne : ("anonymousKey=" ++ formEncode ri.anonymousKey ++ "&" ++
        ("output=" ++ formEncode f) : String) ≠ "" :=
      append_ne_empty_left (append_ne_empty_left (append_ne_empty_left (by decide)))
    rw [if_pos hne]

theorem collectF_url_shape (ri : RunInfo) (opts : Opts) :
    ∀ (fuel : Nat) (node : JVal) (results : List RuleHit) (curPath : List String)
      (hits : List RuleHit),
      collectF ri opts fuel node results curPath = .ok hits →
      (∀ h ∈ results, h.url = none ∨ ∃ f : String,
        h.outputFile = some f ∧ h.url = some (hitUrl ri f)) →
      ∀ h ∈ hits, h.url = none ∨ ∃ f : String,
        h.outputFile = some f ∧ h.url = some (hitUrl ri f) := by
  intro fuel
  induction fuel with
  | zero =>
    intro node results curPath hits hok hres
    rw [collectF] at hok
    cases hok
    exact hres
  | succ a ih =>
    intro node results curPath hits hok hres
    rw [collectF] at hok
    by_cases htr : truthy node
    · simp only [htr, Bool.not_true, Bool.false_eq_true, if_false] at hok
      cases hst : statusOf node with
      | error e => rw [hst] at hok; cases hok
      | ok st =>
        rw [hst] at hok
        have hfold : ∀ (cs : List JVal) (acc : List RuleHit) (hits2 : List RuleHit)
            (path : List String),
            cs.foldlM (fun acc c => collectF ri opts a c acc path) acc = .ok hits2 →
            (∀ h ∈ acc, h.url = none ∨ ∃ f : String,
              h.outputFile = some f ∧ h.url = some (hitUrl ri f)) →
            ∀ h ∈ hits2, h.url = none ∨ ∃ f : String,
              h.outputFile = some f ∧ h.url = some (hitUrl ri f) := by
          intro cs
          induction cs with
          | nil =>
            intro acc hits2 path hok2 hacc
            rw [List.foldlM_nil] at hok2
            cases hok2
            exact hacc
          | cons c cs2 ihc =>
            intro acc hits2 path hok2 hacc
            rw [List.foldlM_cons] at hok2
            cases hx : collectF ri opts a c acc path with
            | error e => rw [hx, except_error_bind] at hok2; cases hok2
            | ok acc2 =>
              rw [hx, except_ok_bind] at hok2
              exact ihc acc2 hits2 path hok2 (ih c acc path acc2 hx hacc)
        refine hfold (jChildren node) _ hits _ hok ?_
        intro h hh
        rcases List.mem_append.mp hh with hmem | hmem
        · exact hres h hmem
        · split at hmem
          · unfold outputHits at hmem
            rcases List.mem_filterMap.mp hmem with ⟨o, _, ho⟩
            cases o with
            | jstr f =>
              by_cases hjson : isJsonFileName f = true
              · simp only [hjson, if_true, Option.some.injEq] at ho
                rw [← ho]
                exact Or.inr ⟨f, rfl, mkOutputHit_url ri _ st f⟩
              · simp [hjson] at ho
            | jnull => simp at ho
            | jundefVal => simp at ho
            | jbool b => simp at ho
            | jnum n => simp at ho
            | jarr xs => simp at ho
            | jobj fs => simp at ho
          · split at hmem
            · rcases List.mem_singleton.mp hmem with rfl
              exact Or.inl rfl
            · cases hmem
    · have htr2 : truthy node = false := by simpa using htr
      rw [htr2] at hok
      cases hok
      exact hres

/-- Counterexample for C3: an output file containing `/` is form-encoded
in the URL (`%2F`), so the URL does not carry the output file verbatim. -/
theorem claim3_hit_url_verbatim_counterexample :
    collectFailedRuleOutputs (.jobj [("name", .jstr "r"), ("status", .jstr "VIOLATED"),
        ("output", .jarr [.jstr "treeView/out.json"])])
      ⟨"https://prover.certora.com", some "111", some "aaa", ""⟩ [] [] ⟨false, false, none⟩ =
      .ok [⟨"r", "VIOLATED", some "treeView/out.json",
        some "https://prover.certora.com/result/111/aaa?output=treeView%2Fout.json", none⟩] ∧
    ("https://prover.certora.com/result/111/aaa?output=treeView%2Fout.json" : String) ≠
      "https://prover.certora.com/result/111/aaa?output=" ++ "treeView/out.json" :=
  ⟨by rfl, by decide⟩

/-- Claim C3 as amended: every hit the walker produces from a fresh
accumulator has either a null URL, or a URL of exactly the shape
`{origin}/result/{runId}/{outputId}?[anonymousKey=<key>&]output=<outputFile>`
with `anonymousKey` omitted exactly when the address key is empty and
preceding `output` otherwise — where key and output file appear
form-urlencoded (hence verbatim when they contain only unreserved
characters). -/
theorem claim3_hit_url_form_encoded (node : JVal) (ri : RunInfo) (curPath : List String)
    (opts : Opts) (hits : List RuleHit)
    (hok : collectFailedRuleOutputs node ri [] curPath opts = .ok hits) :
    ∀ h ∈ hits, h.url = none ∨ ∃ f : String,
      h.outputFile = some f ∧ h.url = some (hitUrl ri f) := by
  refine collectF_url_shape ri opts (jsize node) node [] curPath hits hok ?_
  intro h hh
  cases hh

/-- Witness for C3 on the sample tree. -/
theorem claim3_hit_url_form_encoded_witness :
    c1HitViolated.url = none ∨ ∃ f : String,
      c1HitViolated.outputFile = some f ∧ c1HitViolated.url = some (hitUrl c1RunInfo f) :=
  claim3_hit_url_form_encoded c1Tree c1RunInfo [] ⟨false, false, none⟩
    [c1HitViolated, c1HitSanity] (by rfl) c1HitViolated
    (List.mem_cons_self c1HitViolated [c1HitSanity])

theorem containsSub_iff_within {pat l : List Char} :
    containsSub pat l = true ↔ pat <:+: l := by
  induction l with
  | nil =>
    rw [containsSub]
    simp [List.isEmpty_iff]
  | cons a rest ih =>
    rw [containsSub, Bool.or_eq_true, ih, List.isPrefixOf_iff_prefix, List.infix_cons_iff]

theorem dropEndWhile_pref (p : Char → Bool) (l : List Char) :
    dropEndWhile p l <+: l := by
  unfold dropEndWhile
  have h := List.dropWhile_suffix (l := l.reverse) p
  have h2 := List.reverse_prefix.mpr h
  simpa using h2

theorem trimL_within (l : List Char) : trimL l <:+: l := by
  unfold trimL
  exact ((dropEndWhile_pref Char.isWhitespace _).isInfix).trans
    ((List.dropWhile_suffix Char.isWhitespace).isInfix)

theorem pref_append_cons {pat xs ys : List Char} {c : Char}
    (h : pat <+: xs ++ c :: ys) (hc : c ∉ pat) : pat <+: xs := by
  induction pat generalizing xs with
  | nil => exact List.nil_prefix
  | cons p pp ih =>
    cases xs with
    | nil =>
      rw [List.nil_append, List.cons_prefix_cons] at h
      exact absurd (h.1 ▸ List.mem_cons_self p pp) hc
    | cons x xx =>
      rw [List.cons_append, List.cons_prefix_cons] at h
      exact List.cons_prefix_cons.mpr
        ⟨h.1, ih h.2 (fun hm => hc (List.mem_cons_of_mem p hm))⟩

theorem within_append_cons {pat xs ys : List Char} {c : Char}
    (h : pat <:+: xs ++ c :: ys) (hc : c ∉ pat) : pat <:+: xs ∨ pat <:+: ys := by
  induction xs with
  | nil =>
    rw [List.nil_append, List.infix_cons_iff] at h
    rcases h with h | h
    · cases pat with
      | nil => exact Or.inl List.nil_infix
      | cons p pp =>
        rw [List.cons_prefix_cons] at h
        exact absurd (h.1 ▸ List.mem_cons_self p pp) hc
    · exact Or.inr h
  | cons x xx ih =>
    rw [List.cons_append, List.infix_cons_iff] at h
    rcases h with h | h
    · exact Or.inl (pref_append_cons h hc).isInfix
    · rcases ih h with h2 | h2
      · exact Or.inl (h2.trans (List.suffix_cons x xx).isInfix)
      · exact Or.inr h2

theorem intercalate_within_piece {pat : List Char} {c : Char} {gs : List (List Char)}
    (h : pat <:+: intercalateChar c gs) (hc : c ∉ pat) (hne : pat ≠ []) :
    ∃ g ∈ gs, pat <:+: g := by
  induction gs with
  | nil =>
    rw [intercalateChar] at h
    exact absurd (List.eq_nil_of_infix_nil h) hne
  | cons g gs2 ih =>
    cases gs2 with
    | nil =>
      rw [intercalateChar] at h
      exact ⟨g, List.mem_cons_self g [], h⟩
    | cons g2 gs3 =>
      rw [intercalateChar] at h
      rcases within_append_cons h hc with h2 | h2
      · exact ⟨g, List.mem_cons_self g _, h2⟩
      · rcases ih h2 with ⟨g3, hg3, hp3⟩
        exact ⟨g3, List.mem_cons_of_mem g hg3, hp3⟩

theorem lowerL_intercalate (gs : List (List Char)) :
    lowerL (intercalateChar '\n' gs) = intercalateChar '\n' (gs.map lowerL) := by
  induction gs with
  | nil => rfl
  | cons g gs2 ih =>
    cases gs2 with
    | nil => rfl
    | cons g2 gs3 =>
      rw [intercalateChar, List.map_cons, List.map_cons, intercalateChar]
      rw [← List.map_cons lowerL g2 gs3, ← ih]
      unfold lowerL
      rw [List.map_append, List.map_cons]
      rfl

theorem trim_intercalate_no_pattern (pat : List Char) (fl : List (List Char))
    (hnl : '\n' ∉ pat) (hne : pat ≠ [])
    (hmeta : ∀ q ∈ fl, isMetaLine q = false)
    (himp : ∀ q, containsSubCI pat q = true → isMetaLine q = true) :
    containsSubCI pat (trimL (intercalateChar '\n' fl)) = false := by
  by_contra hcon
  have h1 : containsSub pat (lowerL (trimL (intercalateChar '\n' fl))) = true := by
    rw [containsSubCI] at hcon
    simpa using hcon
  have hinf : pat <:+: lowerL (trimL (intercalateChar '\n' fl)) :=
    containsSub_iff_within.mp h1
  have h2 : pat <:+: lowerL (intercalateChar '\n' fl) :=
    hinf.trans ((trimL_within _).map Char.toLower)
  rw [lowerL_intercalate] at h2
  obtain ⟨g, hg, hpg⟩ := intercalate_within_piece h2 hnl hne
  obtain ⟨q, hq, rfl⟩ := List.mem_map.mp hg
  have hci : containsSubCI pat q = true := by
    rw [containsSubCI]
    exact containsSub_iff_within.mpr hpg
  have := himp q hci
  rw [hmeta q hq] at this
  cases this

theorem markerLoop_some {lines : List (List Char)} :
    ∀ {idxs : List Nat} {r : List Char}, markerLoop lines idxs = some r →
      ∃ t, r = segmentFor lines t := by
  intro idxs
  induction idxs with
  | nil => intro r h; cases h
  | cons t rest ih =>
    intro r h
    rw [markerLoop] at h
    by_cases hseg : (segmentFor lines t).isEmpty = true
    · rw [hseg] at h
      simp only [Bool.not_true, Bool.false_eq_true, if_false] at h
      exact ih h
    · have hseg2 : (segmentFor lines t).isEmpty = false := by simpa using hseg
      rw [hseg2] at h
      simp only [Bool.not_false, if_true, Option.some.injEq] at h
      exact ⟨t, h.symm⟩

theorem segmentFor_no_pattern (lines : List (List Char)) (t : Nat) (pat : List Char)
    (hnl : '\n' ∉ pat) (hne : pat ≠ [])
    (himp : ∀ q, containsSubCI pat q = true → isMetaLine q = true) :
    containsSubCI pat (segmentFor lines t) = false := by
  unfold segmentFor
  apply trim_intercalate_no_pattern pat _ hnl hne
  · intro q hq
    have := List.of_mem_filter hq
    simpa using this
  · exact himp

/-- Counterexample for C7: in the surviving segment of the later marker
block, a line carrying an earlier `tokens used:` marker and a line whose
timestamp prefix was hidden by leading whitespace (then revealed by the
final trim) both remain. -/
theorem claim7_extract_no_marker_lines_counterexample :
    2 ≤ (tokenIdxsOf (splitOnCharL '\n' c7Bad.toList)).length ∧
    extractCodexAnswer c7Bad =
      "[2025-01-01T00:00:01Z] a" ++ "\n" ++ "1 tokens used: b" ∧
    ((splitOnCharL '\n' (extractCodexAnswer c7Bad).toList).any hasTokensUsed) = true ∧
    ((splitOnCharL '\n' (extractCodexAnswer c7Bad).toList).any tsStart) = true :=
  ⟨by decide, by rfl, by decide, by decide⟩

/-- Claim C7 as amended: on a transcript with two or more `tokens used:`
markers, whenever the last-to-first marker scan yields a non-empty
filtered segment, `extractCodexAnswer` returns exactly that segment (drawn
from the latest usable block), and the result contains no occurrence of
`workdir:` or `model:` (so no line of it does); `tokens used:` lines and
timestamp-prefixed lines, however, can survive. -/
theorem claim7_extract_last_block (t : String) (r : List Char)
    (_hmany : 2 ≤ (tokenIdxsOf (splitOnCharL '\n' t.toList)).length)
    (hml : markerLoop (splitOnCharL '\n' t.toList)
      (tokenIdxsOf (splitOnCharL '\n' t.toList)).reverse = some r) :
    extractCodexAnswer t = String.mk r ∧
    containsSubCI "workdir:".toList r = false ∧
    containsSubCI "model:".toList r = false := by
  obtain ⟨t0, rfl⟩ := markerLoop_some hml
  refine ⟨?_, ?_, ?_⟩
  · simp only [extractCodexAnswer, hml]
  · apply segmentFor_no_pattern _ _ _ (by decide) (by decide)
    intro q hq
    have hconf : configEcho q = true := by
      unfold configEcho
      simp
      exact Or.inl hq
    simp [isMetaLine, hconf]
  · apply segmentFor_no_pattern _ _ _ (by decide) (by decide)
    intro q hq
    have hconf : configEcho q = true := by
      unfold configEcho
      simp
      exact Or.inr (Or.inl hq)
    simp [isMetaLine, hconf]

/-- Witness for C7 on a two-block transcript. -/
theorem claim7_extract_last_block_witness :
    extractCodexAnswer c7Good = String.mk "second attempt: this is correct".toList ∧
    containsSubCI "workdir:".toList "second attempt: this is correct".toList = false :=
  have h := claim7_extract_last_block c7Good "second attempt: this is correct".toList
    (by decide) (by decide)
  ⟨h.1, h.2.1⟩

theorem mk_toList (s : String) : String.mk s.toList = s := String.ext rfl

theorem mk_ne_empty {l : List Char} (h : l ≠ []) : String.mk l ≠ "" := by
  intro hc
  exact h (congrArg String.data hc)

theorem dropWhile_replicate_slash (n : Nat) (X : List Char) :
    List.dropWhile (fun c => c = '/') (List.replicate n '/' ++ X) =
      List.dropWhile (fun c => c = '/') X := by
  induction n with
  | zero => rfl
  | succ m ih =>
    rw [List.replicate_succ, List.cons_append, List.dropWhile_cons]
    simp [ih]

theorem stripL_append_replicate (l : List Char) (n : Nat) :
    stripTrailingSlashesL (l ++ List.replicate n '/') = stripTrailingSlashesL l := by
  unfold stripTrailingSlashesL dropEndWhile
  rw [List.reverse_append, List.reverse_replicate, dropWhile_replicate_slash]

theorem stripL_eq_self {L : List Char} (h : L.getLast? ≠ some '/') :
    stripTrailingSlashesL L = L := by
  unfold stripTrailingSlashesL dropEndWhile
  cases hrev : L.reverse with
  | nil =>
    have hL : L = [] := by
      have := congrArg List.reverse hrev
      simpa using this
    rw [hL]
    rfl
  | cons c rest =>
    have hc : ¬(c = '/') := by
      intro hcc
      apply h
      rw [← List.head?_reverse, hrev, hcc]
      rfl
    rw [List.dropWhile_cons]
    simp only [hc, Bool.false_eq_true, if_false, decide_eq_true_eq]
    rw [← hrev, List.reverse_reverse]

theorem breakAtChar_not_mem {c : Char} {ys : List Char} :
    ∀ {xs : List Char}, c ∉ xs → breakAtChar c (xs ++ c :: ys) = (xs, some ys) := by
  intro xs
  induction xs with
  | nil =>
    intro h
    rw [List.nil_append, breakAtChar]
    simp
  | cons x xx ih =>
    intro h
    rw [List.cons_append, breakAtChar]
    have hx : ¬(x = c) := fun hc => h (hc ▸ List.mem_cons_self x xx)
    rw [if_neg hx, ih (fun hm => h (List.mem_cons_of_mem x hm))]

theorem breakAtChar_none {c : Char} :
    ∀ {l : List Char}, c ∉ l → breakAtChar c l = (l, none) := by
  intro l
  induction l with
  | nil => intro h; rfl
  | cons x xx ih =>
    intro h
    rw [breakAtChar]
    have hx : ¬(x = c) := fun hc => h (hc ▸ List.mem_cons_self x xx)
    rw [if_neg hx, ih (fun hm => h (List.mem_cons_of_mem x hm))]

theorem breakAtAny_not_mem {seps : List Char} {s : Char} {ys : List Char} (hs : s ∈ seps) :
    ∀ {xs : List Char}, (∀ x ∈ xs, x ∉ seps) →
      breakAtAny seps (xs ++ s :: ys) = (xs, some (s, ys)) := by
  intro xs
  induction xs with
  | nil =>
    intro h
    rw [List.nil_append, breakAtAny, if_pos hs]
  | cons x xx ih =>
    intro h
    rw [List.cons_append, breakAtAny]
    rw [if_neg (h x (List.mem_cons_self x xx)), ih (fun y hy => h y (List.mem_cons_of_mem x hy))]

theorem breakAtAny_none {seps : List Char} :
    ∀ {l : List Char}, (∀ x ∈ l, x ∉ seps) → breakAtAny seps l = (l, none) := by
  intro l
  induction l with
  | nil => intro h; rfl
  | cons x xx ih =>
    intro h
    rw [breakAtAny]
    rw [if_neg (h x (List.mem_cons_self x xx)), ih (fun y hy => h y (List.mem_cons_of_mem x hy))]

theorem splitOnCharL_no_sep {c : Char} :
    ∀ {l : List Char}, c ∉ l → splitOnCharL c l = [l] := by
  intro l
  induction l with
  | nil => intro h; rfl
  | cons x xx ih =>
    intro h
    rw [splitOnCharL]
    have hx : ¬(x = c) := fun hc => h (hc ▸ List.mem_cons_self x xx)
    rw [if_neg hx, ih (fun hm => h (List.mem_cons_of_mem x hm))]
    rfl

theorem splitOnCharL_append_cons {c : Char} {ys : List Char} :
    ∀ {xs : List Char}, c ∉ xs →
      splitOnCharL c (xs ++ c :: ys) = xs :: splitOnCharL c ys := by
  intro xs
  induction xs with
  | nil =>
    intro h
    rw [List.nil_append, splitOnCharL, if_pos rfl]
  | cons x xx ih =>
    intro h
    rw [List.cons_append, splitOnCharL]
    have hx : ¬(x = c) := fun hc => h (hc ▸ List.mem_cons_self x xx)
    rw [if_neg hx, ih (fun hm => h (List.mem_cons_of_mem x hm))]
    rfl

theorem isEmpty_false_of_ne_nil {l : List Char} (h : l ≠ []) : l.isEmpty = false := by
  cases l with
  | nil => exact absurd rfl h
  | cons x xx => rfl

theorem parseUrl_https (hL P QL : List Char) (hh : hL ≠ [])
    (hhsep : ∀ c ∈ hL, c ∉ [':', '/', '?', '#'])
    (hP : ∀ c ∈ P, c ∉ ['?', '#']) (hQ : '#' ∉ QL) :
    parseUrl (String.mk ("https".toList ++ ':' :: '/' :: '/' :: (hL ++ '/' :: (P ++ '?' :: QL)))) =
      some ⟨"https:", String.mk hL, String.mk ('/' :: P), String.mk QL⟩ := by
  unfold parseUrl
  have h1 : breakAtChar ':' ("https".toList ++ ':' :: '/' :: '/' :: (hL ++ '/' :: (P ++ '?' :: QL))) =
      ("https".toList, some ('/' :: '/' :: (hL ++ '/' :: (P ++ '?' :: QL)))) :=
    breakAtChar_not_mem (by decide)
  rw [show (String.mk ("https".toList ++ ':' :: '/' :: '/' :: (hL ++ '/' :: (P ++ '?' :: QL)))).toList =
    "https".toList ++ ':' :: '/' :: '/' :: (hL ++ '/' :: (P ++ '?' :: QL)) from rfl]
  rw [h1]
  simp only []
  rw [if_neg (by decide)]
  rw [if_neg (by simp)]
  have h2 : breakAtAny ['/', '?', '#'] (('/' :: '/' :: (hL ++ '/' :: (P ++ '?' :: QL))).drop 2) =
      (hL, some ('/', P ++ '?' :: QL)) := by
    rw [List.drop_succ_cons, List.drop_succ_cons, List.drop_zero]
    exact breakAtAny_not_mem (by decide)
      (fun x hx hmem => hhsep x hx (List.mem_cons_of_mem ':' hmem))
  rw [h2]
  simp only []
  rw [if_neg (by simpa using isEmpty_false_of_ne_nil hh)]
  have h3 : breakAtAny ['?', '#'] (P ++ '?' :: QL) = (P, some ('?', QL)) :=
    breakAtAny_not_mem (by decide) hP
  rw [h3]
  simp only []
  rw [breakAtChar_none hQ]
  rfl

theorem parseUrl_https_noquery (hL P : List Char) (hh : hL ≠ [])
    (hhsep : ∀ c ∈ hL, c ∉ [':', '/', '?', '#'])
    (hP : ∀ c ∈ P, c ∉ ['?', '#']) :
    parseUrl (String.mk ("https".toList ++ ':' :: '/' :: '/' :: (hL ++ '/' :: P))) =
      some ⟨"https:", String.mk hL, String.mk ('/' :: P), ""⟩ := by
  unfold parseUrl
  have h1 : breakAtChar ':' ("https".toList ++ ':' :: '/' :: '/' :: (hL ++ '/' :: P)) =
      ("https".toList, some ('/' :: '/' :: (hL ++ '/' :: P))) :=
    breakAtChar_not_mem (by decide)
  rw [show (String.mk ("https".toList ++ ':' :: '/' :: '/' :: (hL ++ '/' :: P))).toList =
    "https".toList ++ ':' :: '/' :: '/' :: (hL ++ '/' :: P) from rfl]
  rw [h1]
  simp only []
  rw [if_neg (by decide)]
  rw [if_neg (by simp)]
  have h2 : breakAtAny ['/', '?', '#'] (('/' :: '/' :: (hL ++ '/' :: P)).drop 2) =
      (hL, some ('/', P)) := by
    rw [List.drop_succ_cons, List.drop_succ_cons, List.drop_zero]
    exact breakAtAny_not_mem (by decide)
      (fun x hx hmem => hhsep x hx (List.mem_cons_of_mem ':' hmem))
  rw [h2]
  simp only []
  rw [if_neg (by simpa using isEmpty_false_of_ne_nil hh)]
  have h3 : breakAtAny ['?', '#'] P = (P, none) :=
    breakAtAny_none hP
  rw [h3]
  rfl

theorem not_mem_class_of_all {cl : Char → Bool} {xs l : List Char}
    (hxs : ∀ x ∈ xs, cl x = true) (hl : ∀ x ∈ l, cl x = false) :
    ∀ x ∈ xs, x ∉ l := by
  intro x hx hm
  have h1 := hxs x hx
  rw [hl x hm] at h1
  cases h1

theorem not_mem_of_class {cl : Char → Bool} {c : Char} {l : List Char}
    (hc : cl c = true) (hl : ∀ x ∈ l, cl x = false) : c ∉ l := by
  intro hm
  have h1 := hl c hm
  rw [hc] at h1
  cases h1

theorem getLast?_last_seg (xs : List Char) (c : Char) (ys : List Char) :
    (xs ++ c :: ys).getLast? = (c :: ys).getLast? := by
  rw [List.getLast?_append]
  cases h : (c :: ys).getLast? with
  | none => exact absurd (List.getLast?_eq_none_iff.mp h) (by simp)
  | some a => rfl

theorem getLast?_cons_ne_nil {c : Char} {ys : List Char} (h : ys ≠ []) :
    (c :: ys).getLast? = ys.getLast? := by
  cases ys with
  | nil => exact absurd rfl h
  | cons y yy => exact List.getLast?_cons_cons

theorem getLast?_class {cl : Char → Bool} :
    ∀ {l : List Char}, (∀ x ∈ l, cl x = true) → ∀ {a : Char}, l.getLast? = some a →
      cl a = true := by
  intro l
  induction l with
  | nil => intro _ a h; cases h
  | cons c ys ih =>
    intro hall a h
    cases ys with
    | nil =>
      have : a = c := by
        rw [show ([c] : List Char).getLast? = some c from rfl] at h
        exact (Option.some.injEq _ _ ▸ h).symm ▸ rfl
      rw [this]
      exact hall c (List.mem_cons_self c [])
    | cons y yy =>
      rw [List.getLast?_cons_cons] at h
      exact ih (fun x hx => hall x (List.mem_cons_of_mem c hx)) h

theorem getLast?_after_eq {KL : List Char} (hK : ∀ c ∈ KL, segChar c = true) :
    ('=' :: KL).getLast? ≠ some '/' := by
  cases KL with
  | nil => simp
  | cons k ks =>
    rw [List.getLast?_cons_cons]
    intro h
    have := getLast?_class hK h
    exact absurd this (by decide)

theorem stripL_canonical (hL P KL : List Char) (hK : ∀ c ∈ KL, segChar c = true) :
    stripTrailingSlashesL ("https".toList ++ ':' :: '/' :: '/' ::
        (hL ++ '/' :: (P ++ '?' :: ("anonymousKey".toList ++ '=' :: KL)))) =
      "https".toList ++ ':' :: '/' :: '/' ::
        (hL ++ '/' :: (P ++ '?' :: ("anonymousKey".toList ++ '=' :: KL))) := by
  apply stripL_eq_self
  rw [getLast?_last_seg]
  rw [getLast?_cons_ne_nil (by simp)]
  rw [getLast?_cons_ne_nil (by simp)]
  rw [getLast?_cons_ne_nil (by simp)]
  rw [getLast?_last_seg]
  rw [getLast?_cons_ne_nil (by simp)]
  rw [getLast?_last_seg]
  rw [getLast?_cons_ne_nil (by simp)]
  rw [getLast?_last_seg]
  exact getLast?_after_eq hK

theorem slash_not_mem_seg {l : List Char} (h : ∀ c ∈ l, segChar c = true) : '/' ∉ l := by
  intro hm
  exact absurd (h '/' hm) (by decide)

theorem key_if_collapse (KL : List Char) :
    (if String.mk KL = "" then "" else String.mk KL) = String.mk KL := by
  by_cases h : String.mk KL = ""
  · rw [if_pos h, h]
  · rw [if_neg h]

theorem parseRunInfo_canonical (hL RL OL KL : List Char)
    (hh : hL ≠ []) (hhc : ∀ c ∈ hL, hostChar c = true)
    (hR : RL ≠ []) (hRc : ∀ c ∈ RL, segChar c = true)
    (hO : OL ≠ []) (hOc : ∀ c ∈ OL, segChar c = true)
    (hKc : ∀ c ∈ KL, segChar c = true) :
    parseRunInfo (String.mk ("https".toList ++ ':' :: '/' :: '/' ::
        (hL ++ '/' :: (("output".toList ++ '/' :: (RL ++ '/' :: OL)) ++ '?' ::
          ("anonymousKey".toList ++ '=' :: KL))))) =
      some ⟨"https://" ++ String.mk hL, some (String.mk RL), some (String.mk OL),
        String.mk KL⟩ := by
  unfold parseRunInfo
  have hstrip : stripTrailingSlashes (String.mk ("https".toList ++ ':' :: '/' :: '/' ::
      (hL ++ '/' :: (("output".toList ++ '/' :: (RL ++ '/' :: OL)) ++ '?' ::
        ("anonymousKey".toList ++ '=' :: KL))))) =
      String.mk ("https".toList ++ ':' :: '/' :: '/' ::
      (hL ++ '/' :: (("output".toList ++ '/' :: (RL ++ '/' :: OL)) ++ '?' ::
        ("anonymousKey".toList ++ '=' :: KL)))) := by
    unfold stripTrailingSlashes
    rw [show (String.mk ("https".toList ++ ':' :: '/' :: '/' ::
      (hL ++ '/' :: (("output".toList ++ '/' :: (RL ++ '/' :: OL)) ++ '?' ::
        ("anonymousKey".toList ++ '=' :: KL))))).toList =
      "https".toList ++ ':' :: '/' :: '/' ::
      (hL ++ '/' :: (("output".toList ++ '/' :: (RL ++ '/' :: OL)) ++ '?' ::
        ("anonymousKey".toList ++ '=' :: KL))) from rfl]
    rw [stripL_canonical hL _ KL hKc]
  rw [hstrip]
  have hPsep : ∀ c ∈ "output".toList ++ '/' :: (RL ++ '/' :: OL), c ∉ ['?', '#'] := by
    intro c hc
    simp only [List.mem_append, List.mem_cons] at hc
    rcases hc with hc | hc | hc | hc | hc
    · exact not_mem_of_class (show segChar c = true by revert hc; revert c; decide) (by decide)
    · rw [hc]
      decide
    · exact not_mem_of_class (hRc c hc) (by decide)
    · rw [hc]
      decide
    · exact not_mem_of_class (hOc c hc) (by decide)
  have hQsharp : '#' ∉ "anonymousKey".toList ++ '=' :: KL := by
    intro hm
    rcases List.mem_append.mp hm with hm | hm
    · revert hm
      decide
    · rcases List.mem_cons.mp hm with hm | hm
      · cases hm
      · exact absurd (hKc _ hm) (by decide)
  rw [parseUrl_https hL ("output".toList ++ '/' :: (RL ++ '/' :: OL))
    ("anonymousKey".toList ++ '=' :: KL) hh
    (fun c hc => not_mem_of_class (hhc c hc) (by decide)) hPsep hQsharp]
  simp only []
  have hsplit : splitOnCharL '/' ('/' :: ("output".toList ++ '/' :: (RL ++ '/' :: OL))) =
      [[], "output".toList, RL, OL] := by
    rw [splitOnCharL, if_pos rfl]
    rw [splitOnCharL_append_cons (by decide)]
    rw [splitOnCharL_append_cons (slash_not_mem_seg hRc)]
    rw [splitOnCharL_no_sep (slash_not_mem_seg hOc)]
  rw [show (String.mk ('/' :: ("output".toList ++ '/' :: (RL ++ '/' :: OL)))).toList =
    '/' :: ("output".toList ++ '/' :: (RL ++ '/' :: OL)) from rfl]
  rw [hsplit]
  rw [List.map_cons, List.map_cons, List.map_cons, List.map_cons, List.map_nil]
  rw [show String.mk ([] : List Char) = "" from rfl, mk_toList "output"]
  rw [List.filter_cons, List.filter_cons, List.filter_cons, List.filter_cons,
    List.filter_nil]
  rw [if_neg (by simp), if_pos (by simp), if_pos (by simpa using mk_ne_empty hR),
    if_pos (by simpa using mk_ne_empty hO)]
  rw [scanParts, if_pos ⟨rfl, by simp⟩]
  have hq : searchParamGet (String.mk ("anonymousKey".toList ++ '=' :: KL))
      "anonymousKey" = some (String.mk KL) := by
    unfold searchParamGet
    simp only []
    rw [show (String.mk ("anonymousKey".toList ++ '=' :: KL)).toList =
      "anonymousKey".toList ++ '=' :: KL from rfl]
    have hamp : '&' ∉ "anonymousKey".toList ++ '=' :: KL := by
      intro hm
      rcases List.mem_append.mp hm with hm | hm
      · revert hm
        decide
      · rcases List.mem_cons.mp hm with hm | hm
        · cases hm
        · exact absurd (hKc _ hm) (by decide)
    rw [splitOnCharL_no_sep hamp]
    rw [List.find?_cons_of_pos _ (by
      rw [breakAtChar_not_mem (by decide)]
      simp)]
    simp only [Option.map_some']
    rw [breakAtChar_not_mem (by decide)]
    rfl
  rw [hq]
  simp only []
  rw [key_if_collapse]
  rw [show ("https:" ++ "//" : String) = "https://" from rfl]
  rfl

theorem toList_ne_nil {s : String} (h : s ≠ "") : s.toList ≠ [] :=
  fun hc => h (String.ext hc)

theorem parseRunInfo_canonical_short (hL : List Char)
    (hh : hL ≠ []) (hhc : ∀ c ∈ hL, hostChar c = true) :
    parseRunInfo (String.mk ("https".toList ++ ':' :: '/' :: '/' ::
        (hL ++ '/' :: "output".toList))) =
      some ⟨"https://" ++ String.mk hL, none, none, ""⟩ := by
  unfold parseRunInfo
  have hstrip : stripTrailingSlashes (String.mk ("https".toList ++ ':' :: '/' :: '/' ::
      (hL ++ '/' :: "output".toList))) =
      String.mk ("https".toList ++ ':' :: '/' :: '/' :: (hL ++ '/' :: "output".toList)) := by
    unfold stripTrailingSlashes
    rw [show (String.mk ("https".toList ++ ':' :: '/' :: '/' ::
      (hL ++ '/' :: "output".toList))).toList =
      "https".toList ++ ':' :: '/' :: '/' :: (hL ++ '/' :: "output".toList) from rfl]
    rw [stripL_eq_self]
    rw [getLast?_last_seg]
    rw [getLast?_cons_ne_nil (by simp)]
    rw [getLast?_cons_ne_nil (by simp)]
    rw [getLast?_cons_ne_nil (by simp)]
    rw [getLast?_last_seg]
    rw [getLast?_cons_ne_nil (by decide)]
    decide
  rw [hstrip]
  rw [parseUrl_https_noquery hL "output".toList hh
    (fun c hc => not_mem_of_class (hhc c hc) (by decide)) (by decide)]
  simp only []
  have hsplit : splitOnCharL '/' ('/' :: "output".toList) = [[], "output".toList] := by
    rw [splitOnCharL, if_pos rfl]
    rw [splitOnCharL_no_sep (by decide)]
  rw [show (String.mk ('/' :: "output".toList)).toList = '/' :: "output".toList from rfl]
  rw [hsplit]
  rw [List.map_cons, List.map_cons, List.map_nil]
  rw [show String.mk ([] : List Char) = "" from rfl, mk_toList "output"]
  rw [List.filter_cons, List.filter_cons, List.filter_nil]
  rw [if_neg (by simp), if_pos (by simp)]
  rw [scanParts, if_pos ⟨rfl, by simp⟩]
  rw [show searchParamGet "" "anonymousKey" = none from rfl]
  rw [show ("https:" ++ "//" : String) = "https://" from rfl]
  rfl

theorem parseRunInfo_slash_invariant (s : String) (n : Nat) :
    parseRunInfo (s ++ String.mk (List.replicate n '/')) = parseRunInfo s := by
  unfold parseRunInfo
  have hst : stripTrailingSlashes (s ++ String.mk (List.replicate n '/')) =
      stripTrailingSlashes s := by
    unfold stripTrailingSlashes
    rw [show (s ++ String.mk (List.replicate n '/')).toList =
      s.toList ++ List.replicate n '/' from String.data_append s _]
    rw [stripL_append_replicate]
  rw [hst]

theorem url_concat_canonical (h R O K : String) :
    ("https://" ++ h ++ "/output/" ++ R ++ "/" ++ O ++ "?anonymousKey=" ++ K : String) =
      String.mk ("https".toList ++ ':' :: '/' :: '/' ::
        (h.toList ++ '/' :: (("output".toList ++ '/' :: (R.toList ++ '/' :: O.toList)) ++ '?' ::
          ("anonymousKey".toList ++ '=' :: K.toList)))) := by
  apply String.ext
  simp only [String.data_append, String.toList]
  simp [List.append_assoc]

theorem url_concat_short (h : String) :
    ("https://" ++ h ++ "/output" : String) =
      String.mk ("https".toList ++ ':' :: '/' :: '/' :: (h.toList ++ '/' :: "output".toList)) := by
  apply String.ext
  simp only [String.data_append, String.toList]
  simp [List.append_assoc]

/-- Claim C2: on every URL of the family
`https://host/output/<R>/<O>?anonymousKey=<K>` over inert characters,
`parseRunInfo` returns `runId = R`, `outputId = O`, `anonymousKey = K` and
`origin = protocol + host`; appending trailing slashes to any input string
never changes the result; and a path too short to supply the two segments
after `output` yields `none` for both identifiers without an error. -/
theorem claim2_parseRunInfo_valid_urls :
    (∀ h R O K : String, hostStr h → segStr R → segStr O → keyStr K →
      parseRunInfo ("https://" ++ h ++ "/output/" ++ R ++ "/" ++ O ++ "?anonymousKey=" ++ K) =
        some ⟨"https://" ++ h, some R, some O, K⟩) ∧
    (∀ (s : String) (n : Nat),
      parseRunInfo (s ++ String.mk (List.replicate n '/')) = parseRunInfo s) ∧
    (∀ h : String, hostStr h →
      parseRunInfo ("https://" ++ h ++ "/output") =
        some ⟨"https://" ++ h, none, none, ""⟩) := by
  refine ⟨fun h R O K hh hR hO hK => ?_, parseRunInfo_slash_invariant, fun h hh => ?_⟩
  · rw [url_concat_canonical]
    rw [parseRunInfo_canonical h.toList R.toList O.toList K.toList
      (toList_ne_nil hh.1) hh.2 (toList_ne_nil hR.1) hR.2.2.2
      (toList_ne_nil hO.1) hO.2.2.2 hK]
    rw [mk_toList, mk_toList, mk_toList, mk_toList]
  · rw [url_concat_short]
    rw [parseRunInfo_canonical_short h.toList (toList_ne_nil hh.1) hh.2]
    rw [mk_toList]

/-- Witness for C2 at a concrete URL of the family and with trailing
slashes appended. -/
theorem claim2_parseRunInfo_valid_urls_witness :
    parseRunInfo "https://prover.certora.com/output/12345/abcdef123456?anonymousKey=secret123" =
      some ⟨"https://prover.certora.com", some "12345", some "abcdef123456", "secret123"⟩ ∧
    parseRunInfo ("https://prover.certora.com/output/12345/abcdef123456" ++
        String.mk (List.replicate 3 '/')) =
      parseRunInfo "https://prover.certora.com/output/12345/abcdef123456" := by
  constructor
  · have := claim2_parseRunInfo_valid_urls.1 "prover.certora.com" "12345" "abcdef123456"
      "secret123" ⟨by decide, by decide⟩ ⟨by decide, by decide, by decide, by decide⟩
      ⟨by decide, by decide, by decide, by decide⟩ (by unfold keyStr; decide)
    rw [show ("https://" ++ "prover.certora.com" ++ "/output/" ++ "12345" ++ "/" ++
      "abcdef123456" ++ "?anonymousKey=" ++ "secret123" : String) =
      "https://prover.certora.com/output/12345/abcdef123456?anonymousKey=secret123"
      from rfl] at this
    exact this
  · exact claim2_parseRunInfo_valid_urls.2.1
      "https://prover.certora.com/output/12345/abcdef123456" 3
